import Mathlib

/-!
Verification development for the rich-text layout engine implemented in
`ui/text/text.cpp` (class `Ui::Text::String` and associated free functions).

The embedding below translates the relevant parts of the source into Lean:

* `QFixed` values (1/64-pixel fixed point) are modelled as `Int` holding the
  raw 64ths value; `fceil` models `QFixed::ceil().toInt()` and `ftoInt`
  models `QFixed::toInt()` (round to nearest, as in Qt's implementation).
* The backing `QString` is modelled as `List Char` (one element per UTF-16
  code unit of the original).
* Blocks (`AbstractBlock` subclasses) are a closed inductive; the block
  metrics `f_width`, `f_rbearing`, `f_rpadding` and the style-measured
  height `CountBlockHeight` are opaque pre-measured inputs in the source
  (provided by the font-metrics collaborator), so they are stored as data
  on each block.
* Stateful loops become explicit folds over the block list; the word loop
  of `enumerateLines` (which can move its iterator backwards on rollback)
  becomes a well-founded recursion on the pair of suffixes `(anchor, rest)`.

Definitions follow the source of `text.cpp`; where a needed declaration
lives in a header or another translation unit that is not part of the
source (block constructors, `CountBlockHeight`, `IsMono`,
`AllTextSelection`), it is modelled from the spec and marked as such in
its doc comment.
-/

/-- `QFixed::ceil().toInt()` on a raw 1/64 fixed-point value: Qt computes
`(v + 63) & ~63` followed by an arithmetic shift by 6, i.e. the integer
ceiling of `v / 64`. -/
def fceil (v : Int) : Int := (v + 63).ediv 64

/-- `QFixed::toInt()` on a raw 1/64 fixed-point value: Qt computes
`(v + 32) >> 6`, i.e. rounding to the nearest integer. -/
def ftoInt (v : Int) : Int := (v + 32).ediv 64

/-- `QMargins`, as used for paragraph padding. -/
structure Margins where
  left : Int
  top : Int
  right : Int
  bottom : Int
  deriving DecidableEq, Repr

/-- `QMargins::setTop`. -/
def Margins.setTop (m : Margins) (t : Int) : Margins := { m with top := t }

def Margins.zero : Margins := ⟨0, 0, 0, 0⟩

/-! ### Text block flags

`TextBlockFlags` is a bit-set (`int32` in the source); we keep the bitmask
representation.  The concrete bit values are irrelevant as long as they are
distinct powers of two. -/

def flagItalic : Nat := 1
def flagBold : Nat := 2
def flagSemibold : Nat := 4
def flagUnderline : Nat := 8
def flagSpoilerF : Nat := 16
def flagStrikeOut : Nat := 32
def flagCode : Nat := 64
def flagPre : Nat := 128
def flagBlockquote : Nat := 256

/-- Modelled from the spec: `IsMono(flags)` — a flag combination denotes
"monospace" when it contains the Code or Pre flag (spec §4.1: "whether a
style-flag combination denotes 'monospace' (code or pre)"). -/
def IsMonoF (flags : Nat) : Bool := flags &&& (flagCode ||| flagPre) != 0

/-! ### Blocks -/

/-- A word inside a `TextBlock`.  The stored width is sign-encoded in the
source: a negative `f_width` marks a forced sub-chunk of a long word that
does not end the word (`wordEndsHere = (j->f_width() >= 0)`). -/
structure Word where
  fwidth : Int
  rbearing : Int
  rpadding : Int
  deriving DecidableEq, Repr

/-- Data common to all block kinds: position into the backing text, style
flags, 1-based link index (0 = none), and the measured metrics.  `height`
models `CountBlockHeight(block, style)`, which lives outside this
translation unit; the spec (§3) specifies each run carries a measured
height, so it is stored here (modelled from the spec). -/
structure BlockData where
  position : Nat
  flags : Nat
  linkIndex : Nat
  fwidth : Int
  rbearing : Int
  rpadding : Int
  height : Int
  deriving DecidableEq, Repr

/-- The closed set of block kinds of the source (`TextBlockType`). -/
inductive Block where
  | text (d : BlockData) (words : List Word)
  | newline (d : BlockData) (paragraphIndex : Nat)
  | skip (d : BlockData)
  | emoji (d : BlockData)
  | customEmoji (d : BlockData) (entityData : List Char)
  deriving DecidableEq, Repr

def Block.data : Block → BlockData
  | .text d _ => d
  | .newline d _ => d
  | .skip d => d
  | .emoji d => d
  | .customEmoji d _ => d

def Block.position (b : Block) : Nat := b.data.position
def Block.flags (b : Block) : Nat := b.data.flags
def Block.linkIndex (b : Block) : Nat := b.data.linkIndex
def Block.fwidth (b : Block) : Int := b.data.fwidth
def Block.rbearing (b : Block) : Int := b.data.rbearing
def Block.rpadding (b : Block) : Int := b.data.rpadding

/-- `CountBlockHeight(block, style)`: modelled from the spec as the
measured per-run height stored on the block. -/
def Block.height (b : Block) : Int := b.data.height

def Block.isNewline : Block → Bool
  | .newline _ _ => true
  | _ => false

def Block.isSkip : Block → Bool
  | .skip _ => true
  | _ => false

def Block.isText : Block → Bool
  | .text _ _ => true
  | _ => false

/-! ### Paragraph details and style -/

/-- `ParagraphDetails` — only the `pre` flag matters for the layout
queries under verification (it selects which frame style is used). -/
structure ParagraphDetails where
  pre : Bool
  deriving DecidableEq, Repr

/-- The slice of `style::TextStyle`'s `pre` / `blockquote` sub-styles read
by `paragraphPadding`: a padding margin, a header height and a vertical
skip. -/
structure FrameStyle where
  padLeft : Int
  padTop : Int
  padRight : Int
  padBottom : Int
  header : Int
  verticalSkip : Int
  deriving DecidableEq, Repr

structure Style where
  pre : FrameStyle
  blockquote : FrameStyle
  deriving DecidableEq, Repr

def Style.zero : Style := ⟨⟨0,0,0,0,0,0⟩, ⟨0,0,0,0,0,0⟩⟩

/-! ### Links, entity types, selections -/

/-- `EntityType` values used by the extraction code. -/
inductive EntityType where
  | url | customUrl | email | botCommand | mention | mentionName
  | hashtag | cashtag
  | italic | bold | semibold | underline | spoiler | strikeOut
  | code | pre | blockquote | customEmojiE | invalid
  deriving DecidableEq, Repr

/-- The part of a `ClickHandler` observable through `getTextEntity()`: an
entity type plus its data payload (e.g. the URL). -/
structure LinkHandler where
  entityType : EntityType
  data : List Char
  deriving DecidableEq, Repr

/-- `TextSelection`: a half-open `[from, to)` pair of character offsets.
The source fields are named `from`/`to`; `from` is a Lean keyword, hence
the underscores. -/
structure TextSelection where
  from_ : Nat
  to_ : Nat
  deriving DecidableEq, Repr

/-- Modelled from the spec: `TextSelection::empty()`; the spec (§3) defines
a selection as a half-open pair with `from <= to`, empty meaning it covers
no characters. -/
def TextSelection.isEmptySel (s : TextSelection) : Bool := s.from_ == s.to_

/-- Modelled from the spec: `AllTextSelection`, the full-range default
selection `{0, 0xFFFF}` used by `toTextWithEntities()`. -/
def AllTextSelection : TextSelection := ⟨0, 65535⟩

/-! ### The aggregate string -/

/-- The state of a `Ui::Text::String` (named `TextString` here because
`String` is taken by Lean).  `maxWidth`, `minHeight` and
`endsWithParagraphDetails` are the cached results of the last
`recountNaturalSize` run; `links` and `paragraphs` model the corresponding
tables of the lazily allocated `ExtendedData` (absence = empty lists). -/
structure TextString where
  text : List Char
  blocks : List Block
  startParagraphIndex : Nat
  paragraphs : List ParagraphDetails
  style : Style
  minResizeWidth : Int
  links : List (Option LinkHandler)
  skipBlockAddedNewline : Bool
  maxWidth : Int
  minHeight : Int
  endsWithParagraphDetails : Bool
  deriving DecidableEq, Repr

/-- `String::paragraphByIndex`: index 0 means "no framing"; otherwise a
1-based lookup into the paragraph-details list (out-of-range defensively
treated as absent). -/
def TextString.paragraphByIndex (s : TextString) (index : Nat) :
    Option ParagraphDetails :=
  if index = 0 then none else s.paragraphs.get? (index - 1)

/-- `String::paragraphPadding`: no details → zero margins; otherwise the
frame style's padding plus `QMargins(0, header + verticalSkip, 0,
verticalSkip)`. -/
def TextString.paragraphPadding (s : TextString)
    (info : Option ParagraphDetails) : Margins :=
  match info with
  | none => Margins.zero
  | some pd =>
      let st := if pd.pre then s.style.pre else s.style.blockquote
      ⟨st.padLeft, st.padTop + (st.header + st.verticalSkip),
        st.padRight, st.padBottom + st.verticalSkip⟩

/-- Padding of the paragraph with the given index. -/
def TextString.paraPadding (s : TextString) (index : Nat) : Margins :=
  s.paragraphPadding (s.paragraphByIndex index)

/-- `String::paragraphIndex` for a newline block (or the start index when
there is no previous newline). -/
def paragraphIndexOf (s : TextString) (b : Option Block) : Nat :=
  match b with
  | some (.newline _ p) => p
  | _ => s.startParagraphIndex

/-- `String::hasSkipBlock`. -/
def TextString.hasSkipBlock (s : TextString) : Bool :=
  match s.blocks.getLast? with
  | some b => b.isSkip
  | none => false

/-- `String::isEmpty`. -/
def TextString.isEmptyString (s : TextString) : Bool :=
  match s.blocks with
  | [] => true
  | b :: _ => b.isSkip

/-! ### Natural size (`String::recountNaturalSize`)

The direction computation (`computeParagraphDirection`) only stores
LTR/RTL flags that none of the layout queries under verification read, so
it is not modelled. -/

structure NaturalState where
  pindex : Nat
  pad : Margins
  maxW : Int
  minH : Int
  lineHeight : Int
  width : Int
  lastRB : Int
  lastRP : Int
  deriving DecidableEq, Repr

def naturalInit (s : TextString) : NaturalState :=
  let pad := s.paraPadding s.startParagraphIndex
  { pindex := s.startParagraphIndex
    pad := pad
    maxW := 0
    minH := pad.top
    lineHeight := 0
    width := pad.left + pad.right
    lastRB := 0
    lastRP := 0 }

/-- One iteration of the block loop of `recountNaturalSize`. -/
def naturalStep (s : TextString) (st : NaturalState) (b : Block) :
    NaturalState :=
  match b with
  | .newline _ pidx =>
      let lineHeight := if st.lineHeight = 0 then b.height else st.lineHeight
      let st1 :=
        if st.pindex ≠ pidx then
          let pad' := s.paraPadding pidx
          { st with
              minH := st.minH + st.pad.bottom + pad'.top
              pindex := pidx
              pad := pad'.setTop 0 }
        else st
      { st1 with
          minH := st1.minH + lineHeight
          lineHeight := 0
          lastRB := 0
          lastRP := 0
          maxW := max st1.maxW st1.width
          width := st1.pad.left + st1.pad.right }
  | _ =>
      let rb := b.rbearing
      { st with
          maxW := max st.maxW st.width
          width := st.width + st.lastRB + (st.lastRP + b.fwidth - rb)
          lineHeight := max st.lineHeight b.height
          lastRB := rb
          lastRP := b.rpadding }

/-- The epilogue of `recountNaturalSize` (the `width > 0` branch). -/
def naturalFinalize (s : TextString) (st : NaturalState) : NaturalState :=
  if 0 < st.width then
    let lineHeight :=
      if st.lineHeight = 0 then
        (match s.blocks.getLast? with
         | some b => b.height
         | none => 0)
      else st.lineHeight
    { st with
        minH := st.minH + st.pad.top + lineHeight + st.pad.bottom
        maxW := max st.maxW st.width }
  else st

def naturalFinal (s : TextString) : NaturalState :=
  naturalFinalize s (s.blocks.foldl (naturalStep s) (naturalInit s))

/-- `_maxWidth` as recomputed by `recountNaturalSize`
(`maxWidth.ceil().toInt()`). -/
def naturalMaxWidthPx (s : TextString) : Int := fceil (naturalFinal s).maxW

/-- `_minHeight` as recomputed by `recountNaturalSize`. -/
def naturalMinHeight (s : TextString) : Int := (naturalFinal s).minH

/-- `_endsWithParagraphDetails` as recomputed by `recountNaturalSize`. -/
def naturalEndsWithParagraphDetails (s : TextString) : Bool :=
  (naturalFinal s).pindex ≠ 0

/-- `String::recountNaturalSize` as a state update: refreshes the cached
`_maxWidth`, `_minHeight` and `_endsWithParagraphDetails`. -/
def recountNaturalSizeFn (s : TextString) : TextString :=
  { s with
      maxWidth := naturalMaxWidthPx s
      minHeight := naturalMinHeight s
      endsWithParagraphDetails := naturalEndsWithParagraphDetails s }

/-- A string state whose cached natural-size fields agree with its data —
the situation the source maintains by calling `recountNaturalSize` after
every mutation. -/
def Coherent (s : TextString) : Prop := recountNaturalSizeFn s = s

/-! ### Line enumeration (`String::enumerateLines`)

`enumerateLines` walks the blocks, greedily extending the current line and
emitting `(lineWidth, lineHeight)` pairs through a callback.  The model
collects the emitted lines in a list; each line additionally records which
layout units (words / non-text blocks) were committed to it — pure
instrumentation used to state the conservation property of C9, invisible
to the arithmetic. -/

/-- A layout unit: either a word of a text block or a whole non-text
block.  Text blocks with no words ("spaces only") contribute no unit —
the breaker folds them into trailing padding. -/
inductive LUnit where
  | word (w : Word)
  | block (b : Block)
  deriving DecidableEq, Repr

/-- One emitted line: the arguments of one `callback(...)` invocation plus
the units committed to the line. -/
structure Line where
  width : Int
  height : Int
  units : List LUnit
  deriving DecidableEq, Repr

structure EnumState where
  pindex : Nat
  pad : Margins
  lineHeight : Int
  lastRB : Int
  lastRP : Int
  widthLeft : Int
  longWordLine : Bool
  lines : List Line
  cur : List LUnit
  deriving DecidableEq, Repr

/-- The word loop of `enumerateLines` (the `for (auto j = ..., f = j; ...)`
loop).  `rest` is the suffix of words from the iterator `j`; `anchor` is
the suffix from the rollback anchor `f` (so `rest` is a suffix of
`anchor`); `fwLeft`, `fLineHeight` and `savedCur` are the state saved at
the anchor.  The hypothesis `rest.length ≤ anchor.length` reflects
`f <= j` and makes the lexicographic termination measure work. -/
def wordLoop (W64 blockHeight : Int) (breakEverywhere : Bool) :
    (anchor rest : List Word) → rest.length ≤ anchor.length →
    (fwLeft fLineHeight : Int) → (savedCur : List LUnit) →
    EnumState → EnumState
  | _, [], _, _, _, _, st => st
  | anchor, j :: rest', h, fwLeft, fLineHeight, savedCur, st =>
      let wordEndsHere := 0 ≤ j.fwidth
      let jw := if 0 ≤ j.fwidth then j.fwidth else -j.fwidth
      let newWidthLeft := st.widthLeft - st.lastRB - (st.lastRP + jw - j.rbearing)
      if 0 ≤ newWidthLeft then
        let lwl := if wordEndsHere then false else st.longWordLine
        let st' := { st with
          lastRB := j.rbearing
          lastRP := j.rpadding
          widthLeft := newWidthLeft
          lineHeight := max st.lineHeight blockHeight
          longWordLine := lwl
          cur := st.cur ++ [.word j] }
        if wordEndsHere ∨ lwl then
          wordLoop W64 blockHeight breakEverywhere rest' rest' le_rfl
            newWidthLeft st'.lineHeight st'.cur st'
        else
          wordLoop W64 blockHeight breakEverywhere anchor rest'
            (Nat.le_trans (Nat.le_succ rest'.length) h) fwLeft fLineHeight
            savedCur st'
      else
        if anchor ≠ j :: rest' ∧ breakEverywhere = false then
          -- roll back to the anchor: `j = f`
          match anchor with
          | [] => st  -- unreachable: `rest` is a suffix of `anchor`
          | a :: atail =>
              let aw := if 0 ≤ a.fwidth then a.fwidth else -a.fwidth
              let line : Line :=
                ⟨W64 - fwLeft, fLineHeight + st.pad.top, savedCur⟩
              let nlh := max 0 blockHeight
              let nwl := W64 - st.pad.left - st.pad.right - (aw - a.rbearing)
              let nst := { st with
                pad := st.pad.setTop 0
                lineHeight := nlh
                lastRB := a.rbearing
                lastRP := a.rpadding
                widthLeft := nwl
                longWordLine := ¬wordEndsHere
                lines := st.lines ++ [line]
                cur := [.word a] }
              wordLoop W64 blockHeight breakEverywhere atail atail le_rfl
                nwl nlh nst.cur nst
        else
          -- break at the current word
          let line : Line :=
            ⟨W64 - st.widthLeft, st.lineHeight + st.pad.top, st.cur⟩
          let nlh := max 0 blockHeight
          let nwl := W64 - st.pad.left - st.pad.right - (jw - j.rbearing)
          let nst := { st with
            pad := st.pad.setTop 0
            lineHeight := nlh
            lastRB := j.rbearing
            lastRP := j.rpadding
            widthLeft := nwl
            longWordLine := ¬wordEndsHere
            lines := st.lines ++ [line]
            cur := [.word j] }
          wordLoop W64 blockHeight breakEverywhere rest' rest' le_rfl
            nwl nlh nst.cur nst
  termination_by anchor rest => (anchor.length, rest.length)
  decreasing_by
  · apply Prod.Lex.left
    simp only [List.length_cons] at h ⊢
    omega
  · apply Prod.Lex.right
    simp
  · apply Prod.Lex.left
    simp
  · apply Prod.Lex.left
    simp only [List.length_cons] at h ⊢
    omega

/-- The units a whole block contributes when it is committed in one piece. -/
def blockUnits : Block → List LUnit
  | .text _ words => words.map LUnit.word
  | b => [.block b]

/-- One iteration of the block loop of `enumerateLines`. -/
def blockStep (s : TextString) (W64 : Int) (breakEverywhere : Bool)
    (st : EnumState) (b : Block) : EnumState :=
  let blockHeight := b.height
  match b with
  | .newline _ pidx =>
      let lh0 := if st.lineHeight = 0 then blockHeight else st.lineHeight
      let lh1 := lh0 + st.pad.top
      if st.pindex ≠ pidx then
        let lh2 := lh1 + st.pad.bottom
        let pad' := s.paraPadding pidx
        let line : Line := ⟨W64 - st.widthLeft, lh2, st.cur ++ [.block b]⟩
        { st with
            pindex := pidx
            pad := pad'
            lineHeight := 0
            lastRB := 0
            lastRP := 0
            widthLeft := W64 - pad'.left - pad'.right
            longWordLine := true
            lines := st.lines ++ [line]
            cur := [] }
      else
        let pad' := st.pad.setTop 0
        let line : Line := ⟨W64 - st.widthLeft, lh1, st.cur ++ [.block b]⟩
        { st with
            pad := pad'
            lineHeight := 0
            lastRB := 0
            lastRP := 0
            widthLeft := W64 - pad'.left - pad'.right
            longWordLine := true
            lines := st.lines ++ [line]
            cur := [] }
  | _ =>
      let rb := b.rbearing
      let newWidthLeft := st.widthLeft - st.lastRB - (st.lastRP + b.fwidth - rb)
      if 0 ≤ newWidthLeft then
        { st with
            lastRB := rb
            lastRP := b.rpadding
            widthLeft := newWidthLeft
            lineHeight := max st.lineHeight blockHeight
            longWordLine := false
            cur := st.cur ++ blockUnits b }
      else
        match b with
        | .text d words =>
            match words with
            | [] =>
                -- spaces only: lay the block out on the same line
                { st with
                    lastRP := st.lastRP + d.rpadding
                    lineHeight := max st.lineHeight blockHeight
                    longWordLine := false }
            | _ =>
                wordLoop W64 blockHeight breakEverywhere words words le_rfl
                  st.widthLeft st.lineHeight st.cur st
        | _ =>
            let line : Line :=
              ⟨W64 - st.widthLeft, st.lineHeight + st.pad.top, st.cur⟩
            let nlh := max 0 blockHeight
            let nwl := W64 - st.pad.left - st.pad.right - (b.fwidth - rb)
            { st with
                pad := st.pad.setTop 0
                lineHeight := nlh
                lastRB := rb
                lastRP := b.rpadding
                widthLeft := nwl
                longWordLine := true
                lines := st.lines ++ [line]
                cur := [.block b] }

/-- Available width in 64ths: `QFixed(std::max(w, _minResizeWidth))`. -/
def availWidth64 (s : TextString) (w : Int) : Int :=
  64 * max w s.minResizeWidth

def enumInit (s : TextString) (W64 : Int) : EnumState :=
  let pad := s.paraPadding s.startParagraphIndex
  { pindex := s.startParagraphIndex
    pad := pad
    lineHeight := 0
    lastRB := 0
    lastRP := 0
    widthLeft := W64 - pad.left - pad.right
    longWordLine := true
    lines := []
    cur := [] }

def enumerateCore (s : TextString) (w : Int) (breakEverywhere : Bool) :
    EnumState :=
  let W64 := availWidth64 s w
  s.blocks.foldl (blockStep s W64 breakEverywhere) (enumInit s W64)

/-- `String::enumerateLines`, with instrumentation: the list of emitted
lines (including the final flush when `widthLeft < width`). -/
def enumerateLinesU (s : TextString) (w : Int) (breakEverywhere : Bool) :
    List Line :=
  let W64 := availWidth64 s w
  let st := enumerateCore s w breakEverywhere
  st.lines ++
    (if st.widthLeft < W64 then
      [⟨W64 - st.widthLeft, st.lineHeight + st.pad.top + st.pad.bottom,
        st.cur⟩]
     else [])

/-- The `(lineWidth, lineHeight)` pairs passed to the callback. -/
def enumerateLines (s : TextString) (w : Int) (breakEverywhere : Bool) :
    List (Int × Int) :=
  (enumerateLinesU s w breakEverywhere).map (fun l => (l.width, l.height))

/-- `String::countWidth`, instrumented with a flag telling whether the
line breaker (`enumerateLines`) was invoked. -/
def countWidthI (s : TextString) (width : Int) (breakEverywhere : Bool) :
    Int × Bool :=
  if s.maxWidth ≤ width then (s.maxWidth, false)
  else
    (fceil ((enumerateLines s width breakEverywhere).foldl
      (fun maxLineWidth l => if maxLineWidth < l.1 then l.1 else maxLineWidth)
      0), true)

def countWidth (s : TextString) (width : Int) (breakEverywhere : Bool) :
    Int :=
  (countWidthI s width breakEverywhere).1

/-- `String::countHeight`, instrumented like `countWidthI`. -/
def countHeightI (s : TextString) (width : Int) (breakEverywhere : Bool) :
    Int × Bool :=
  if s.maxWidth ≤ width then (s.minHeight, false)
  else
    ((enumerateLines s width breakEverywhere).foldl
      (fun result l => result + l.2) 0, true)

def countHeight (s : TextString) (width : Int) (breakEverywhere : Bool) :
    Int :=
  (countHeightI s width breakEverywhere).1

/-- Sum of the per-line heights of a line list. -/
def sumHeights (ls : List Line) : Int := ls.foldl (fun a l => a + l.height) 0

/-- All layout units of a string, in order. -/
def allUnits (s : TextString) : List LUnit :=
  s.blocks.flatMap (fun b =>
    match b with
    | .newline _ _ => [.block b]
    | .text _ words => words.map LUnit.word
    | b => [.block b])

/-- Concatenation of the units of all emitted lines. -/
def joinUnits (ls : List Line) : List LUnit := ls.flatMap Line.units

/-! ### Skip-block mutation (`updateSkipBlock` / `removeSkipBlock`)

The block constructors `Block::Newline` / `Block::Skip` live in the block
translation unit, not in this source file.  Modelled from the spec:
`updateSkipBlock` appends a line-feed sentinel plus a Newline block with
paragraph index 0 (leaving the framed paragraph, so that the reserved
spacer sits on an unframed line) and then an underscore sentinel plus a
Skip block of the requested pixel size (stored as `QFixed`, i.e. `64 *
width`) with zero bearing and padding. -/

def mkNewlineBlock (position : Nat) : Block :=
  .newline ⟨position, 0, 0, 0, 0, 0, 0⟩ 0

def mkSkipBlock (position : Nat) (width height : Int) : Block :=
  .skip ⟨position, 0, 0, 64 * width, 0, 0, height⟩

/-- `String::updateSkipBlock`. -/
def updateSkipBlock (s : TextString) (width height : Int) :
    Bool × TextString :=
  match s.blocks.getLast? with
  | some (.skip d) =>
      if ftoInt d.fwidth = width ∧ d.height = height then (false, s)
      else
        let s1 := { s with
          text := s.text.take d.position
          blocks := s.blocks.dropLast }
        let s2 := { s1 with
          text := s1.text ++ ['_']
          blocks := s1.blocks ++
            [mkSkipBlock (s1.text.length + 1 - 1) width height] }
        (true, recountNaturalSizeFn s2)
  | _ =>
      let s1 :=
        if s.endsWithParagraphDetails then
          { s with
            text := s.text ++ ['\n']
            blocks := s.blocks ++ [mkNewlineBlock (s.text.length + 1 - 1)]
            skipBlockAddedNewline := true }
        else s
      let s2 := { s1 with
        text := s1.text ++ ['_']
        blocks := s1.blocks ++
          [mkSkipBlock (s1.text.length + 1 - 1) width height] }
      (true, recountNaturalSizeFn s2)

/-- `String::removeSkipBlock`. -/
def removeSkipBlock (s : TextString) : Bool × TextString :=
  match s.blocks.getLast? with
  | some (.skip d) =>
      if s.skipBlockAddedNewline then
        let s1 := { s with
          text := s.text.take (d.position - 1)
          blocks := s.blocks.dropLast.dropLast
          skipBlockAddedNewline := false }
        (true, recountNaturalSizeFn s1)
      else
        let s1 := { s with
          text := s.text.take d.position
          blocks := s.blocks.dropLast }
        (true, recountNaturalSizeFn s1)
  | _ => (false, s)

/-! ### Selection extraction (`String::enumerateText`, `String::toText`)

`enumerateText` is callback-parameterised in the source; the model keeps
that shape with an explicit state type `S`.  The click-handler finish
callback receives, besides the source's `(text slice, handler, entity
type)`, the `linkPosition` / `blockPosition` values in scope at the call —
instrumentation used to state the coverage property of C6 (ignored by the
`toText` instance). -/

/-- Substring `[a, b)` of the backing text. -/
def textMid (t : List Char) (a b : Nat) : List Char := (t.take b).drop a

/-- The effective link index of a block inside `enumerateText`
(`blockLinkIndex` lambda): monospace blocks carry no link; a link index is
live only if the link table holds a non-null handler for it.  The
out-of-range lookup is defensively `none` (the source indexes the vector
unchecked). -/
def effLinkIndex (s : TextString) (b : Block) : Nat :=
  if IsMonoF b.flags then 0
  else
    let r := b.linkIndex
    if r ≠ 0 ∧ ((s.links.get? (r - 1)).join).isSome then r else 0

/-- The link-boundary part of one `enumerateText` iteration: fires the
finish event for a link that just ended and the start event for one that
just began, and updates `(linkIndex, linkPosition)`. -/
def enumTextLinkPart {S : Type} (s : TextString) (sel : TextSelection)
    (clickStart : S → EntityType → S)
    (clickFinish : S → List Char → Nat → Nat → Option LinkHandler →
      EntityType → S)
    (acc : S) (linkIndex linkPosition : Nat)
    (blockPosition blockLinkIndex : Nat) : S × Nat × Nat :=
  if blockLinkIndex ≠ linkIndex then
    let acc1 :=
      if linkIndex ≠ 0 then
        let rangeFrom := max sel.from_ linkPosition
        let rangeTo := min sel.to_ blockPosition
        if rangeFrom < rangeTo then
          let handler :=
            if linkPosition ≠ rangeFrom ∨ blockPosition ≠ rangeTo then
              none
            else (s.links.get? (linkIndex - 1)).join
          let etype := match handler with
            | some h => h.entityType
            | none => EntityType.invalid
          clickFinish acc (textMid s.text rangeFrom rangeTo)
            linkPosition blockPosition handler etype
        else acc
      else acc
    if blockLinkIndex ≠ 0 then
      let handler := (s.links.get? (blockLinkIndex - 1)).join
      let etype := match handler with
        | some h => h.entityType
        | none => EntityType.invalid
      (clickStart acc1 etype, blockLinkIndex, blockPosition)
    else (acc1, blockLinkIndex, linkPosition)
  else (acc, linkIndex, linkPosition)

/-- The style-flags part of one `enumerateText` iteration. -/
def enumTextFlagsPart {S : Type} (sel : TextSelection)
    (flagsChange : S → Nat → Nat → S)
    (acc : S) (flags blockPosition blockFlags : Nat) : S × Nat :=
  if (sel.from_ ≤ blockPosition ∧ blockPosition ≤ sel.to_) ∧
      blockFlags ≠ flags then
    (flagsChange acc flags blockFlags, blockFlags)
  else (acc, flags)

/-- The body of the `for (auto i = _blocks.cbegin(), e = _blocks.cend();
true; ++i)` loop of `enumerateText`, as a recursion over the remaining
blocks; the empty list plays the role of `i == e`. -/
def enumTextGo {S : Type} (s : TextString) (sel : TextSelection)
    (appendPart : S → List Char → List Char → S)
    (clickStart : S → EntityType → S)
    (clickFinish : S → List Char → Nat → Nat → Option LinkHandler →
      EntityType → S)
    (flagsChange : S → Nat → Nat → S) :
    S → Nat → Nat → Nat → List Block → S := fun acc linkIndex linkPosition flags bs =>
  let blockPosition := match bs with
    | [] => s.text.length
    | b :: _ => b.position
  let blockFlags := match bs with
    | [] => 0
    | b :: _ => b.flags
  let blockLinkIndex := match bs with
    | [] => 0
    | b :: _ => effLinkIndex s b
  let step1 := enumTextLinkPart s sel clickStart clickFinish
    acc linkIndex linkPosition blockPosition blockLinkIndex
  let acc1 := step1.1
  let linkIndex1 := step1.2.1
  let linkPosition1 := step1.2.2
  let accFlags := enumTextFlagsPart sel flagsChange
    acc1 flags blockPosition blockFlags
  let acc2 := accFlags.1
  let flags1 := accFlags.2
  match bs with
  | [] => acc2
  | b :: rest =>
      if (if linkIndex1 ≠ 0 then linkPosition1 else blockPosition) ≥ sel.to_ then
        acc2
      else if b.isSkip then
        enumTextGo s sel appendPart clickStart clickFinish flagsChange
          acc2 linkIndex1 linkPosition1 flags1 rest
      else
        let nextPosition := match rest with
          | [] => s.text.length
          | nb :: _ => nb.position
        let blockLength := nextPosition - blockPosition
        let rangeFrom := max sel.from_ blockPosition
        let rangeTo := min sel.to_ (blockPosition + blockLength)
        let acc3 :=
          if rangeFrom < rangeTo then
            let customEmojiData := match b with
              | .customEmoji _ ed => ed
              | _ => []
            appendPart acc2 (textMid s.text rangeFrom rangeTo) customEmojiData
          else acc2
        enumTextGo s sel appendPart clickStart clickFinish flagsChange
          acc3 linkIndex1 linkPosition1 flags1 rest

/-- `String::enumerateText`. -/
def enumerateText {S : Type} (s : TextString) (sel : TextSelection)
    (appendPart : S → List Char → List Char → S)
    (clickStart : S → EntityType → S)
    (clickFinish : S → List Char → Nat → Nat → Option LinkHandler →
      EntityType → S)
    (flagsChange : S → Nat → Nat → S) (init : S) : S :=
  if s.isEmptyString || sel.isEmptySel then init
  else
    enumTextGo s sel appendPart clickStart clickFinish flagsChange
      init 0 0 0 s.blocks

/-! ### `String::toText` -/

/-- `EntityInText`: type, offset and length (in output-text characters,
kept as `Int` as in the source) plus the data payload. -/
structure EntityInText where
  type : EntityType
  offset : Int
  length : Int
  data : List Char
  deriving DecidableEq, Repr

/-- `insertEntity` scans from the end of the entity list past every entity
whose offset is greater than the new one and inserts there; this helper is
that scan on the reversed list. -/
def insertEntityRev : List EntityInText → EntityInText → List EntityInText
  | [], e => [e]
  | x :: xs, e =>
      if e.offset < x.offset then x :: insertEntityRev xs e else e :: x :: xs

/-- The `insertEntity` lambda of `toText`. -/
def insertEntity (l : List EntityInText) (e : EntityInText) :
    List EntityInText :=
  (insertEntityRev l.reverse e).reverse

structure MarkdownTagTracker where
  flag : Nat
  type : EntityType
  start : Int
  deriving DecidableEq, Repr

/-- The `markdownTrackers` initial list (only built when
`composeEntities`). -/
def initTrackers (composeEntities : Bool) : List MarkdownTagTracker :=
  if composeEntities then
    [⟨flagItalic, .italic, 0⟩, ⟨flagBold, .bold, 0⟩,
     ⟨flagSemibold, .semibold, 0⟩, ⟨flagUnderline, .underline, 0⟩,
     ⟨flagSpoilerF, .spoiler, 0⟩, ⟨flagStrikeOut, .strikeOut, 0⟩,
     ⟨flagCode, .code, 0⟩, ⟨flagPre, .pre, 0⟩,
     ⟨flagBlockquote, .blockquote, 0⟩]
  else []

/-- The mutable state threaded through `toText`'s callbacks.  The
`expanded` text built under `composeExpanded` is not modelled (it depends
on `UrlClickHandler::EncodeForOpening`, an external collaborator, and no
claim mentions it). -/
structure ToTextState where
  text : List Char
  entities : List EntityInText
  linkStart : Int
  trackers : List MarkdownTagTracker
  deriving DecidableEq, Repr

/-- `flagsChangeCallback` of `toText`. -/
def toTextFlagsChange (composeEntities : Bool) (st : ToTextState)
    (oldFlags newFlags : Nat) : ToTextState :=
  if composeEntities = false then st
  else
    st.trackers.foldl (fun acc tracker =>
      let flag := tracker.flag
      if (oldFlags &&& flag ≠ 0) ∧ (newFlags &&& flag = 0) then
        let e : EntityInText :=
          ⟨tracker.type, tracker.start,
            (st.text.length : Int) - tracker.start, []⟩
        { acc with
            entities := insertEntity acc.entities e
            trackers := acc.trackers ++ [tracker] }
      else if (newFlags &&& flag ≠ 0) ∧ (oldFlags &&& flag = 0) then
        { acc with trackers :=
            acc.trackers ++ [{ tracker with start := (st.text.length : Int) }] }
      else
        { acc with trackers := acc.trackers ++ [tracker] })
      { st with trackers := [] }

/-- `clickHandlerStartCallback` of `toText`. -/
def toTextClickStart (st : ToTextState) (_etype : EntityType) : ToTextState :=
  { st with linkStart := (st.text.length : Int) }

/-- `entity.data.startsWith(qstr("internal:"))`. -/
def startsWithInternal (data : List Char) : Bool :=
  List.isPrefixOf "internal:".toList data

/-- `clickHandlerFinishCallback` of `toText` (the `composeExpanded` branch
only builds the unmodelled expanded text). -/
def toTextClickFinish (composeExpanded composeEntities : Bool)
    (st : ToTextState) (_inText : List Char) (_lp _bp : Nat)
    (handler : Option LinkHandler) (_etype : EntityType) : ToTextState :=
  match handler with
  | none => st
  | some h =>
      if composeExpanded = false ∧ composeEntities = false then st
      else
        let plainUrl := h.entityType = .url ∨ h.entityType = .email
        let customTextLink := h.entityType = .customUrl
        let internalLink := customTextLink ∧ startsWithInternal h.data
        if composeEntities ∧ ¬internalLink then
          let e : EntityInText :=
            ⟨h.entityType, st.linkStart,
              (st.text.length : Int) - st.linkStart,
              if plainUrl then [] else h.data⟩
          { st with entities := insertEntity st.entities e }
        else st

/-- `appendPartCallback` of `toText`. -/
def toTextAppendPart (composeEntities : Bool) (st : ToTextState)
    (part customEmojiData : List Char) : ToTextState :=
  let st1 := { st with text := st.text ++ part }
  if composeEntities ∧ customEmojiData ≠ [] then
    let e : EntityInText :=
      ⟨.customEmojiE, (st1.text.length : Int) - part.length,
        (part.length : Int), customEmojiData⟩
    { st1 with entities := insertEntity st1.entities e }
  else st1

/-- The sort projection of `toText`: `(offset, url-like ? 0 : 1)`. -/
def entityIsUrlLike (t : EntityType) : Bool :=
  t = .url ∨ t = .customUrl ∨ t = .botCommand ∨ t = .mention ∨
    t = .mentionName ∨ t = .hashtag ∨ t = .cashtag

def entityKey (e : EntityInText) : Int × Int :=
  (e.offset, if entityIsUrlLike e.type then 0 else 1)

/-- The strict comparison `pred` of `toText`'s final sort
(lexicographic `std::pair` comparison of the projections). -/
def entityKeyLt (a b : EntityInText) : Bool :=
  (entityKey a).1 < (entityKey b).1 ∨
    ((entityKey a).1 = (entityKey b).1 ∧ (entityKey a).2 < (entityKey b).2)

/-- The induced non-strict order (`!pred(b, a)`); a sequence is a valid
`std::sort(pred)` result exactly when it is pairwise `entityKeyLe`. -/
def entityKeyLe (a b : EntityInText) : Bool := !(entityKeyLt b a)

/-- `String::toText` before the final `std::sort` pass. -/
def toTextPreSort (s : TextString) (sel : TextSelection)
    (composeExpanded composeEntities : Bool) : ToTextState :=
  enumerateText s sel
    (toTextAppendPart composeEntities)
    toTextClickStart
    (toTextClickFinish composeExpanded composeEntities)
    (toTextFlagsChange composeEntities)
    ⟨[], [], 0, initTrackers composeEntities⟩

/-- `String::toText`.  The final pass is `std::sort(..., pred)` in the
source; `std::sort` promises a permutation that is sorted with respect to
`pred` and nothing more (in particular no stability), and `mergeSort` is
one implementation satisfying that contract (see `StdSortSpec` below for
the contract itself). -/
def toText (s : TextString) (sel : TextSelection)
    (composeExpanded composeEntities : Bool) : ToTextState :=
  let st := toTextPreSort s sel composeExpanded composeEntities
  if composeEntities then
    { st with entities := st.entities.mergeSort entityKeyLe }
  else st

/-- The postcondition the C++ standard gives for
`std::sort(first, last, pred)`: some permutation of the input that is
sorted with respect to `pred` (equal-key order unspecified). -/
def StdSortSpec (input output : List EntityInText) : Prop :=
  output.Perm input ∧ output.Pairwise (fun a b => entityKeyLt b a = false)

/-- `String::toString`. -/
def toStringSel (s : TextString) (sel : TextSelection) : List Char :=
  (toText s sel false false).text

/-- `String::toTextWithEntities` (at its default full-range selection). -/
def toTextWithEntitiesFull (s : TextString) : ToTextState :=
  toText s AllTextSelection false true

/-! ### Character classification and selection adjustment -/

/-- `_text.at(i)` — character access on the backing text (the source
never reads out of range; out-of-range access is defensively a space). -/
def charAt (t : List Char) (i : Nat) : Char := t.getD i ' '

/-- `IsWordSeparator` — the source's fixed separator set, written with
character codes (space, line feed, and the punctuation list
`. , ? ! @ # $ : ; - < > [ ] ( ) { } = / + % & ^ * ' " backtick ~ |`). -/
def IsWordSeparatorC (c : Char) : Bool :=
  let n := c.toNat
  n = 32 ∨ n = 10 ∨ n = 46 ∨ n = 44 ∨ n = 63 ∨ n = 33 ∨ n = 64 ∨
    n = 35 ∨ n = 36 ∨ n = 58 ∨ n = 59 ∨ n = 45 ∨ n = 60 ∨ n = 62 ∨
    n = 91 ∨ n = 93 ∨ n = 40 ∨ n = 41 ∨ n = 123 ∨ n = 125 ∨ n = 61 ∨
    n = 47 ∨ n = 43 ∨ n = 37 ∨ n = 38 ∨ n = 94 ∨ n = 42 ∨ n = 39 ∨
    n = 34 ∨ n = 96 ∨ n = 126 ∨ n = 124

/-- `IsParagraphSeparator` — line feed only. -/
def IsParagraphSeparatorC (c : Char) : Bool := c.toNat = 10

/-- `IsSpace`.  `QChar::isSpace()` (Qt's Unicode white-space test) is
modelled by the standard Unicode white-space set; the remaining disjuncts
are the source's own additions. -/
def IsSpaceC (c : Char) : Bool :=
  let n := c.toNat
  n = 32 ∨ (9 ≤ n ∧ n ≤ 13) ∨ n = 133 ∨ n = 160 ∨ n = 5760 ∨
    (8192 ≤ n ∧ n ≤ 8202) ∨ n = 8232 ∨ n = 8233 ∨ n = 8239 ∨
    n = 8287 ∨ n = 12288 ∨
    n < 32 ∨ n = 65532 ∨ n = 8203

/-- `TextSelectType`. -/
inductive TextSelectType where
  | letters | words | paragraphs
  deriving DecidableEq, Repr

/-- `while (from > 0 && !sep(text.at(from - 1))) --from;` -/
def scanBackSep (t : List Char) (sep : Char → Bool) : Nat → Nat
  | 0 => 0
  | n + 1 => if sep (charAt t n) then n + 1 else scanBackSep t sep n

/-- `while (to < size && !sep(text.at(to))) ++to;` — written with the
remaining distance `t.length - i` as a structural fuel so that the kernel
can evaluate it. -/
def scanForwardSepGo (t : List Char) (sep : Char → Bool) :
    Nat → Nat → Nat
  | 0, i => i
  | n + 1, i =>
      if i < t.length then
        (if sep (charAt t i) then i else scanForwardSepGo t sep n (i + 1))
      else i

def scanForwardSep (t : List Char) (sep : Char → Bool) (i : Nat) : Nat :=
  scanForwardSepGo t sep (t.length - i) i

/-- `while (to > 0 && IsSpace(_text.at(to - 1))) --to;` -/
def trimSpacesBack (t : List Char) : Nat → Nat
  | 0 => 0
  | n + 1 => if IsSpaceC (charAt t n) then trimSpacesBack t n else n + 1

/-- The `from`/`to` expansion shared by word and paragraph snapping. -/
def expandBySep (t : List Char) (sep : Char → Bool) (fromv tov : Nat) :
    Nat × Nat :=
  let fromv' :=
    if ¬ sep (charAt t fromv) then scanBackSep t sep fromv else fromv
  let tov' :=
    if tov < t.length then
      (if sep (charAt t tov) then tov + 1 else scanForwardSep t sep tov)
    else tov
  (fromv', tov')

/-- `String::adjustSelection`. -/
def adjustSelection (s : TextString) (selection : TextSelection)
    (selectType : TextSelectType) : TextSelection :=
  let fromv := selection.from_
  let tov := selection.to_
  if fromv < s.text.length ∧ fromv ≤ tov then
    let tov := min tov s.text.length
    match selectType with
    | .letters => ⟨fromv, tov⟩
    | .paragraphs =>
        -- "Full selection of monospace entity": the first block at or past
        -- `from` is inspected; if it is monospace, the entity list of the
        -- full text is searched for a Pre/Code entity containing the range.
        let mono : Option (Nat × Nat × Bool) :=
          match s.blocks.find? (fun b => fromv ≤ b.position) with
          | some b =>
              if IsMonoF b.flags then
                match (toTextWithEntitiesFull s).entities.find? (fun e =>
                    (e.type = .pre ∨ e.type = .code) ∧
                      e.offset ≤ (fromv : Int) ∧
                      (tov : Int) ≤ e.offset + e.length) with
                | some e =>
                    let f1 := e.offset.toNat
                    let t1 := trimSpacesBack s.text (e.offset + e.length).toNat
                    some (f1, t1, f1 ≤ t1)
                | none => none
              else none
          | none => none
        match mono with
        | some (f1, t1, early) =>
            if early then ⟨f1, t1⟩
            else
              -- `break` after mutating from/to: fall through to the
              -- paragraph scan with the mutated values
              let p := expandBySep s.text IsParagraphSeparatorC f1 t1
              ⟨p.1, p.2⟩
        | none =>
            let p := expandBySep s.text IsParagraphSeparatorC fromv tov
            ⟨p.1, p.2⟩
    | .words =>
        let p := expandBySep s.text IsWordSeparatorC fromv tov
        ⟨p.1, p.2⟩
  else ⟨fromv, tov⟩

/-! ### Link-span instrumentation (for the claims about `enumerateText`) -/

/-- One `clickHandlerFinishCallback` invocation, with the `linkPosition` /
`blockPosition` values in scope at the call site. -/
structure FinishEvent where
  slice : List Char
  linkPosition : Nat
  blockPosition : Nat
  handler : Option LinkHandler
  etype : EntityType
  deriving DecidableEq, Repr

/-- All finish events fired by `enumerateText` for a given selection. -/
def finishEvents (s : TextString) (sel : TextSelection) : List FinishEvent :=
  enumerateText s sel
    (fun acc _ _ => acc)
    (fun acc _ => acc)
    (fun acc slice lp bp h t => acc ++ [⟨slice, lp, bp, h, t⟩])
    (fun acc _ _ => acc)
    []

/-- A maximal run of consecutive blocks sharing the same non-zero
effective link index: `[start, stop)` is its run-range in text positions.
This is the reference notion of a "link span" used to state the claims
about `enumerateText`. -/
structure LinkSpan where
  index : Nat
  start : Nat
  stop : Nat
  deriving DecidableEq, Repr

def linkSpansGo (s : TextString) : List Block → Nat → Nat → List LinkSpan
  | [], li, lp => if li ≠ 0 then [⟨li, lp, s.text.length⟩] else []
  | b :: rest, li, lp =>
      let bi := effLinkIndex s b
      if bi = li then linkSpansGo s rest li lp
      else
        (if li ≠ 0 then [⟨li, lp, b.position⟩] else []) ++
          linkSpansGo s rest bi b.position

def linkSpans (s : TextString) : List LinkSpan := linkSpansGo s s.blocks 0 0

/-! ### Concrete strings used by witnesses and counterexamples -/

/-- An emoji block of the given fixed-point width and height. -/
def emojiB (w h : Int) : Block := .emoji ⟨0, 0, 0, w, 0, 0, h⟩

def emptyCache : TextString :=
  { text := []
    blocks := []
    startParagraphIndex := 0
    paragraphs := []
    style := Style.zero
    minResizeWidth := 0
    links := []
    skipBlockAddedNewline := false
    maxWidth := 0
    minHeight := 0
    endsWithParagraphDetails := false }

/-- Three inline emoji of widths 5px, 1px, 1px and heights 1, 10, 10. -/
def strEmoji3 : TextString := recountNaturalSizeFn
  { emptyCache with
      text := ['x']
      blocks := [emojiB (5 * 64) 1, emojiB 64 10, emojiB 64 10] }

/-- A string that starts inside a framed (pre) paragraph with top padding
10 and contains a single 1px block of height 5. -/
def strFramedStart : TextString :=
  { emptyCache with
      text := ['x']
      blocks := [emojiB 64 5]
      startParagraphIndex := 1
      paragraphs := [⟨true⟩]
      style := { pre := ⟨0, 10, 0, 0, 0, 0⟩, blockquote := ⟨0, 0, 0, 0, 0, 0⟩ } }

/-- Mixed content: a plain line, a framed (pre) paragraph line, and a
plain line again, with nontrivial frame padding. -/
def strMixed : TextString :=
  { emptyCache with
      text := "hello\nworld\nzz".toList
      blocks := [
        .text ⟨0, 0, 0, 5 * 64, 0, 0, 14⟩ [⟨5 * 64, 0, 0⟩],
        .newline ⟨5, 0, 0, 0, 0, 0, 14⟩ 1,
        .text ⟨6, flagPre, 0, 7 * 64, 0, 0, 14⟩ [⟨7 * 64, 0, 0⟩],
        .newline ⟨11, flagPre, 0, 0, 0, 0, 14⟩ 0,
        .text ⟨12, 0, 0, 2 * 64, 0, 0, 14⟩ [⟨2 * 64, 0, 0⟩]]
      paragraphs := [⟨true⟩]
      style := { pre := ⟨3, 4, 3, 2, 5, 1⟩, blockquote := ⟨0, 0, 0, 0, 0, 0⟩ } }

/-- Backing text `"ab cd"` (a single spaces-only text block suffices for
the selection-adjustment claims, which read only the text). -/
def strAB : TextString :=
  { emptyCache with
      text := "ab cd".toList
      blocks := [.text ⟨0, 0, 0, 0, 0, 0, 0⟩ []] }

/-- Two text runs, the first one a link (index 1) over `[0, 5)`, with an
`internal:` custom-url handler. -/
def strLinkInternal : TextString :=
  { emptyCache with
      text := "hello worl".toList
      blocks := [
        .text ⟨0, 0, 1, 0, 0, 0, 0⟩ [],
        .text ⟨5, 0, 0, 0, 0, 0, 0⟩ []]
      links := [some ⟨.customUrl, "internal:x".toList⟩] }

/-- Same shape with a plain URL handler. -/
def strLinkUrl : TextString :=
  { strLinkInternal with links := [some ⟨.url, "https:x".toList⟩] }

/-- A bold-italic text run: closing it produces two entities with equal
`(offset, category)` keys. -/
def strStyled : TextString :=
  { emptyCache with
      text := "ab".toList
      blocks := [.text ⟨0, flagItalic ||| flagBold, 0, 0, 0, 0, 0⟩ []] }

/-- `"hello"` plus a trailing Skip block with its `'_'` sentinel. -/
def strWithSkip : TextString := recountNaturalSizeFn
  { emptyCache with
      text := "hello_".toList
      blocks := [
        .text ⟨0, 0, 0, 5 * 64, 0, 0, 14⟩ [⟨5 * 64, 0, 0⟩],
        .skip ⟨5, 0, 0, 64, 0, 0, 7⟩] }

/-- `"hi"` as a single one-word text block. -/
def strPlain2 : TextString := recountNaturalSizeFn
  { emptyCache with
      text := "hi".toList
      blocks := [.text ⟨0, 0, 0, 2 * 64, 0, 0, 14⟩ [⟨2 * 64, 0, 0⟩]] }

/-- A single zero-width emoji block. -/
def strZeroEmoji : TextString := recountNaturalSizeFn
  { emptyCache with
      text := ['x']
      blocks := [.emoji ⟨0, 0, 0, 0, 0, 0, 10⟩] }

/-! ### C1 — short-circuit of `countWidth` / `countHeight` -/

/-- C1: for every string and every width at or above the cached natural
maximum width `_maxWidth`, `countWidth` returns exactly `_maxWidth` and
`countHeight` returns exactly `_minHeight`, and both results come from the
short-circuit branch: the instrumentation flag telling whether
`enumerateLines` ran is `false`. -/
theorem countWidth_countHeight_shortCircuit (s : TextString) (w : Int)
    (be : Bool) (h : s.maxWidth ≤ w) :
    countWidthI s w be = (s.maxWidth, false) ∧
      countHeightI s w be = (s.minHeight, false) := by
  refine ⟨?_, ?_⟩ <;> simp [countWidthI, countHeightI, if_pos h]

theorem countWidth_countHeight_shortCircuit_witness :
    countWidthI strEmoji3 9 false = (strEmoji3.maxWidth, false) ∧
      countHeightI strEmoji3 9 false = (strEmoji3.minHeight, false) :=
  countWidth_countHeight_shortCircuit strEmoji3 9 false (by decide)

/-! ### C3 — (non-)monotonicity of `countHeight` in the width -/

/-- C3 counterexample: on three inline blocks of widths 5px/1px/1px and
heights 1/10/10, the narrower width 5 regroups the blocks so that the
total height is 11, while width 6 gives 20 — so `W1 ≤ W2` does *not*
imply `countHeight W1 ≥ countHeight W2`. -/
theorem countHeight_not_monotone :
    (5 : Int) ≤ 6 ∧
      countHeight strEmoji3 5 false = 11 ∧
      countHeight strEmoji3 6 false = 20 ∧
      ¬ countHeight strEmoji3 6 false ≤ countHeight strEmoji3 5 false := by
  decide

/-- C3 (amended): monotonicity does hold on widths at or above the natural
maximum width, where `countHeight` is constant (both queries short-circuit
to `_minHeight`); below the natural maximum width it can fail, as blocks
of unequal heights regroup (see `countHeight_not_monotone`). -/
theorem countHeight_monotone_above_maxWidth (s : TextString)
    (w1 w2 : Int) (be : Bool) (h1 : s.maxWidth ≤ w1) (h12 : w1 ≤ w2) :
    countHeight s w2 be ≤ countHeight s w1 be := by
  have h2 : s.maxWidth ≤ w2 := le_trans h1 h12
  simp [countHeight, countHeightI, if_pos h1, if_pos h2]

theorem countHeight_monotone_above_maxWidth_witness :
    countHeight strEmoji3 9 false ≤ countHeight strEmoji3 8 false :=
  countHeight_monotone_above_maxWidth strEmoji3 8 9 false (by decide)
    (by decide)

/-! ### C4 — word-mode adjustment idempotence -/

theorem scanBackSep_le (t : List Char) (sep : Char → Bool) :
    ∀ n, scanBackSep t sep n ≤ n := by
  intro n
  induction n with
  | zero => simp [scanBackSep]
  | succ m ih =>
      cases h : sep (charAt t m) with
      | true => simp only [scanBackSep, h, if_true]; exact le_rfl
      | false =>
          simp only [scanBackSep, h, Bool.false_eq_true, if_false]
          exact le_trans ih (Nat.le_succ m)

theorem scanBackSep_spec (t : List Char) (sep : Char → Bool) :
    ∀ n, scanBackSep t sep n = 0 ∨
      sep (charAt t (scanBackSep t sep n - 1)) = true := by
  intro n
  induction n with
  | zero => left; simp [scanBackSep]
  | succ m ih =>
      cases h : sep (charAt t m) with
      | true =>
          right
          simp only [scanBackSep, h, if_true, Nat.add_sub_cancel]
      | false =>
          simpa only [scanBackSep, h, Bool.false_eq_true, if_false] using ih

theorem scanBackSep_fix (t : List Char) (sep : Char → Bool) (n : Nat)
    (h : n = 0 ∨ sep (charAt t (n - 1)) = true) :
    scanBackSep t sep n = n := by
  rcases h with h | h
  · subst h; simp [scanBackSep]
  · cases n with
    | zero => simp [scanBackSep]
    | succ m =>
        simp only [Nat.add_sub_cancel] at h
        simp only [scanBackSep, h, if_true]

/-- The `from` half of `expandBySep` is a fixed point of a second pass. -/
theorem expandBySep_from_stable (t : List Char) (sep : Char → Bool)
    (fromv tov tov2 : Nat) :
    (expandBySep t sep (expandBySep t sep fromv tov).1 tov2).1
      = (expandBySep t sep fromv tov).1 := by
  simp only [expandBySep]
  cases h0 : sep (charAt t fromv) with
  | true => simp only [h0, not_true_eq_false, if_false]
  | false =>
      simp only [h0, Bool.false_eq_true, not_false_eq_true, if_true]
      cases h1 : sep (charAt t (scanBackSep t sep fromv)) with
      | true => simp only [h1, not_true_eq_false, if_false]
      | false =>
          simp only [h1, Bool.false_eq_true, not_false_eq_true, if_true]
          exact scanBackSep_fix t sep _ (scanBackSep_spec t sep fromv)

/-- C4 (amended): word-mode `adjustSelection` is idempotent when the
adjusted range's `to` reaches the text length, and on degenerate inputs
(which are returned unchanged); when the adjusted `to` stops before the
end of the text it necessarily rests on a word separator, so a second
adjustment extends the range further (see
`adjustSelection_words_not_idempotent`). -/
theorem adjustSelection_words_idem (s : TextString) (sel : TextSelection)
    (h : (adjustSelection s sel .words).to_ = s.text.length ∨
      s.text.length ≤ sel.from_ ∨ sel.to_ < sel.from_) :
    adjustSelection s (adjustSelection s sel .words) .words
      = adjustSelection s sel .words := by
  by_cases hg : sel.from_ < s.text.length ∧ sel.from_ ≤ sel.to_
  · have hres : adjustSelection s sel .words =
        ⟨(expandBySep s.text IsWordSeparatorC sel.from_
            (min sel.to_ s.text.length)).1,
          (expandBySep s.text IsWordSeparatorC sel.from_
            (min sel.to_ s.text.length)).2⟩ := by
      simp [adjustSelection, hg]
    have hto : (adjustSelection s sel .words).to_ = s.text.length := by
      rcases h with h | h | h
      · exact h
      · exact absurd hg.1 (not_lt.mpr h)
      · exact absurd hg.2 (not_le.mpr h)
    set f1 := (expandBySep s.text IsWordSeparatorC sel.from_
      (min sel.to_ s.text.length)).1 with hf1
    have hf1le : f1 ≤ sel.from_ := by
      rw [hf1]
      simp only [expandBySep]
      by_cases h0 : IsWordSeparatorC (charAt s.text sel.from_)
      · simp [h0]
      · simp [h0, scanBackSep_le]
    have hg2 : f1 < s.text.length ∧ f1 ≤ s.text.length :=
      ⟨lt_of_le_of_lt hf1le hg.1, le_of_lt (lt_of_le_of_lt hf1le hg.1)⟩
    rw [hres] at hto ⊢
    simp only at hto
    rw [hto]
    have : adjustSelection s ⟨f1, s.text.length⟩ .words =
        ⟨(expandBySep s.text IsWordSeparatorC f1
            (min s.text.length s.text.length)).1,
          (expandBySep s.text IsWordSeparatorC f1
            (min s.text.length s.text.length)).2⟩ := by
      simp [adjustSelection, hg2.1, hg2.2]
    rw [this]
    simp only [min_self]
    have hfrom := expandBySep_from_stable s.text IsWordSeparatorC sel.from_
      (min sel.to_ s.text.length) s.text.length
    rw [← hf1] at hfrom
    have hto2 : (expandBySep s.text IsWordSeparatorC f1 s.text.length).2
        = s.text.length := by
      simp [expandBySep]
    rw [TextSelection.mk.injEq]
    exact ⟨hfrom, hto2⟩
  · have hres : adjustSelection s sel .words = sel := by
      simp only [adjustSelection, if_neg hg]
    rw [hres]
    simp only [adjustSelection, if_neg hg]

theorem adjustSelection_words_idem_witness :
    adjustSelection strAB (adjustSelection strAB ⟨0, 4⟩ .words) .words
      = adjustSelection strAB ⟨0, 4⟩ .words :=
  adjustSelection_words_idem strAB ⟨0, 4⟩ (by decide)

/-- C4 counterexample: on the text `"ab cd"`, word-adjusting `[0, 1)`
yields `[0, 2)` (the scan stops on the space), and adjusting that result
again yields `[0, 3)` — word-mode adjustment is not idempotent. -/
theorem adjustSelection_words_not_idempotent :
    adjustSelection strAB ⟨0, 1⟩ .words = ⟨0, 2⟩ ∧
      adjustSelection strAB (adjustSelection strAB ⟨0, 1⟩ .words) .words
        = ⟨0, 3⟩ ∧
      adjustSelection strAB (adjustSelection strAB ⟨0, 1⟩ .words) .words
        ≠ adjustSelection strAB ⟨0, 1⟩ .words := by
  decide

/-! ### C5 — selection range clamping and degenerate ranges -/

/-- C5 counterexample: the claim says a range with `from` *at or past*
`to` is returned unmodified, but the source's guard is `from <= to`, so an
empty range (`from = to`) *is* processed: on `"ab cd"` the empty word-mode
range `[0, 0)` comes back expanded to `[0, 2)`. -/
theorem adjustSelection_empty_range_modified :
    adjustSelection strAB ⟨0, 0⟩ .words = ⟨0, 2⟩ ∧
      adjustSelection strAB ⟨0, 0⟩ .words ≠ ⟨0, 0⟩ := by
  decide

/-- C5 (amended): an out-of-range `to` is clamped to the text length (the
adjustment behaves exactly as if `to` were first replaced by
`min to length`), and a range whose `from` is strictly past `to` or at or
past the text length is returned unmodified; an empty range with
`from = to < length` is processed like any other (and may be expanded, see
`adjustSelection_empty_range_modified`). -/
theorem adjustSelection_range_handling (s : TextString)
    (sel : TextSelection) (ty : TextSelectType) :
    ((s.text.length ≤ sel.from_ ∨ sel.to_ < sel.from_) →
      adjustSelection s sel ty = sel) ∧
    (sel.from_ < s.text.length → sel.from_ ≤ sel.to_ →
      adjustSelection s sel ty
        = adjustSelection s ⟨sel.from_, min sel.to_ s.text.length⟩ ty) := by
  constructor
  · intro h
    have hg : ¬ (sel.from_ < s.text.length ∧ sel.from_ ≤ sel.to_) := by
      rcases h with h | h
      · exact fun hc => absurd hc.1 (not_lt.mpr h)
      · exact fun hc => absurd hc.2 (not_le.mpr h)
    simp only [adjustSelection, if_neg hg]
  · intro h1 h2
    have hg : sel.from_ < s.text.length ∧ sel.from_ ≤ sel.to_ := ⟨h1, h2⟩
    have hg' : sel.from_ < s.text.length ∧
        sel.from_ ≤ min sel.to_ s.text.length :=
      ⟨h1, le_min h2 (le_of_lt h1)⟩
    simp only [adjustSelection, if_pos hg, if_pos hg']
    have hmm : min (min sel.to_ s.text.length) s.text.length
        = min sel.to_ s.text.length := by
      rw [min_assoc, min_self]
    rw [hmm]

theorem adjustSelection_range_handling_witness :
    adjustSelection strAB ⟨7, 3⟩ .words = ⟨7, 3⟩ ∧
      adjustSelection strAB ⟨0, 99⟩ .words
        = adjustSelection strAB ⟨0, min 99 strAB.text.length⟩ .words :=
  ⟨(adjustSelection_range_handling strAB ⟨7, 3⟩ .words).1 (by decide),
   (adjustSelection_range_handling strAB ⟨0, 99⟩ .words).2 (by decide)
     (by decide)⟩

/-! ### C7 — final entity sort -/

/-- The stability property the claim asserts, for one pair of entities: if
`a` precedes `b` in the pre-sort list and their sort keys are equal, `a`
precedes `b` in the output. -/
def KeepsEqualKeyOrder (pre out : List EntityInText) : Prop :=
  ∀ i j : Nat, ∀ (hi : i < pre.length) (hj : j < pre.length), i < j →
    entityKey (pre.get ⟨i, hi⟩) = entityKey (pre.get ⟨j, hj⟩) →
    ∀ oi oj : Nat, ∀ (hoi : oi < out.length) (hoj : oj < out.length),
      out.get ⟨oi, hoi⟩ = pre.get ⟨i, hi⟩ →
      out.get ⟨oj, hoj⟩ = pre.get ⟨j, hj⟩ → oi < oj

/-- C7 counterexample: on a bold-italic run, `toText` builds the pre-sort
entity list `[Italic(0,2), Bold(0,2)]` whose two entries have equal
`(offset, category)` keys.  The final pass is `std::sort`, whose contract
(`StdSortSpec`) admits the output `[Bold(0,2), Italic(0,2)]`, which
reverses the pre-sort order of the equal-key pair — so the code does not
guarantee a *stable* sort. -/
theorem toText_sort_not_stable :
    (toTextPreSort strStyled ⟨0, 2⟩ false true).entities
      = [⟨.italic, 0, 2, []⟩, ⟨.bold, 0, 2, []⟩] ∧
    StdSortSpec (toTextPreSort strStyled ⟨0, 2⟩ false true).entities
      [⟨.bold, 0, 2, []⟩, ⟨.italic, 0, 2, []⟩] ∧
    ¬ KeepsEqualKeyOrder (toTextPreSort strStyled ⟨0, 2⟩ false true).entities
      [⟨.bold, 0, 2, []⟩, ⟨.italic, 0, 2, []⟩] := by
  refine ⟨by decide, ⟨by decide, by decide⟩, ?_⟩
  intro hko
  have := hko 0 1 (by decide) (by decide) (by decide) (by decide)
    1 0 (by decide) (by decide) (by decide) (by decide)
  omega

theorem entityKeyLe_trans (a b c : EntityInText)
    (h1 : entityKeyLe a b) (h2 : entityKeyLe b c) : entityKeyLe a c := by
  simp only [entityKeyLe, entityKeyLt, Bool.not_eq_true',
    decide_eq_false_iff_not, not_or, not_and, not_lt] at h1 h2 ⊢
  constructor
  · omega
  · intro he
    have := h1.2
    have := h2.2
    omega

theorem entityKeyLe_total (a b : EntityInText) :
    entityKeyLe a b || entityKeyLe b a := by
  simp only [entityKeyLe, entityKeyLt, Bool.or_eq_true, Bool.not_eq_true',
    decide_eq_false_iff_not, not_or, not_and, not_lt]
  omega

/-- C7 (amended): with entity composition, the output entity list of
`toText` is a permutation of the gathered entities that is sorted by the
key `(offset, category)` — where the URL-like types (url, custom-url,
bot-command, mention, mention-name, hashtag, cashtag) rank before all
other types at the same offset — i.e. it satisfies the `std::sort`
postcondition for that key.  Equal-key relative order is *not* specified:
the source uses `std::sort`, not a stable sort (see
`toText_sort_not_stable`). -/
theorem toText_entities_sorted (s : TextString) (sel : TextSelection)
    (ce : Bool) (hce : ce = true) :
    StdSortSpec (toTextPreSort s sel false ce).entities
      (toText s sel false ce).entities := by
  subst hce
  have he : (toText s sel false true).entities
      = (toTextPreSort s sel false true).entities.mergeSort entityKeyLe := by
    simp [toText]
  rw [he]
  constructor
  · exact List.mergeSort_perm _ _
  · have hs := List.sorted_mergeSort entityKeyLe_trans entityKeyLe_total
      (toTextPreSort s sel false true).entities
    refine hs.imp ?_
    intro a b hab
    simpa [entityKeyLe] using hab

theorem toText_entities_sorted_witness :
    StdSortSpec (toTextPreSort strStyled ⟨0, 2⟩ false true).entities
      (toText strStyled ⟨0, 2⟩ false true).entities :=
  toText_entities_sorted strStyled ⟨0, 2⟩ true rfl

/-! ### C10 — `updateSkipBlock` / `removeSkipBlock` -/

def penultimate (l : List Block) : Option Block := l.dropLast.getLast?

theorem recount_keeps_blocks (s : TextString) :
    (recountNaturalSizeFn s).blocks = s.blocks := rfl

theorem recount_keeps_text (s : TextString) :
    (recountNaturalSizeFn s).text = s.text := rfl

theorem recount_keeps_flag (s : TextString) :
    (recountNaturalSizeFn s).skipBlockAddedNewline
      = s.skipBlockAddedNewline := rfl

theorem recount_cached_irrelevant (s : TextString) (mw mh : Int)
    (ew : Bool) :
    recountNaturalSizeFn
        { s with
            maxWidth := mw
            minHeight := mh
            endsWithParagraphDetails := ew }
      = recountNaturalSizeFn s := rfl

theorem updateSkipBlock_same (s : TextString) (w h : Int) (d : BlockData)
    (hd : s.blocks.getLast? = some (.skip d)) (hw : ftoInt d.fwidth = w)
    (hh : d.height = h) : updateSkipBlock s w h = (false, s) := by
  simp only [updateSkipBlock, hd]
  rw [if_pos ⟨hw, hh⟩]

theorem updateSkipBlock_result (s : TextString) (w h : Int)
    (hnd : ∀ d, s.blocks.getLast? = some (.skip d) →
      ¬ (ftoInt d.fwidth = w ∧ d.height = h)) :
    (updateSkipBlock s w h).1 = true ∧
    (∃ p, ((updateSkipBlock s w h).2).blocks.getLast?
        = some (mkSkipBlock p w h)) ∧
    (s.hasSkipBlock = false → s.endsWithParagraphDetails = true →
      penultimate ((updateSkipBlock s w h).2).blocks
          = some (mkNewlineBlock s.text.length) ∧
        ((updateSkipBlock s w h).2).skipBlockAddedNewline = true) := by
  rcases hl : s.blocks.getLast? with _ | b
  · simp only [updateSkipBlock, hl]
    by_cases he : s.endsWithParagraphDetails
    · refine ⟨trivial, ⟨s.text.length + 1, ?_⟩, fun _ _ => ⟨?_, ?_⟩⟩
      · simp [he, recount_keeps_blocks, List.getLast?_concat]
      · simp [he, penultimate, recount_keeps_blocks, List.dropLast_concat,
          List.getLast?_concat, mkNewlineBlock]
      · simp [he, recount_keeps_flag]
    · refine ⟨trivial, ⟨s.text.length, ?_⟩, fun _ hew => absurd hew he⟩
      simp [he, recount_keeps_blocks, List.getLast?_concat]
  · cases b with
    | skip d =>
        have hne := hnd d hl
        have hsb : s.hasSkipBlock = true := by
          simp [TextString.hasSkipBlock, hl, Block.isSkip]
        simp only [updateSkipBlock, hl, if_neg hne]
        refine ⟨trivial, ⟨(s.text.take d.position).length, ?_⟩,
          fun hsb' _ => absurd hsb (by simp [hsb'])⟩
        simp [recount_keeps_blocks, List.getLast?_concat]
    | text d ws =>
        simp only [updateSkipBlock, hl]
        by_cases he : s.endsWithParagraphDetails
        · refine ⟨trivial, ⟨s.text.length + 1, ?_⟩,
            fun _ _ => ⟨?_, ?_⟩⟩
          · simp [he, recount_keeps_blocks, List.getLast?_concat]
          · simp [he, penultimate, recount_keeps_blocks,
              List.dropLast_concat, List.getLast?_concat, mkNewlineBlock]
          · simp [he, recount_keeps_flag]
        · refine ⟨trivial, ⟨s.text.length, ?_⟩,
            fun _ hew => absurd hew he⟩
          simp [he, recount_keeps_blocks, List.getLast?_concat]
    | newline d p =>
        simp only [updateSkipBlock, hl]
        by_cases he : s.endsWithParagraphDetails
        · refine ⟨trivial, ⟨s.text.length + 1, ?_⟩,
            fun _ _ => ⟨?_, ?_⟩⟩
          · simp [he, recount_keeps_blocks, List.getLast?_concat]
          · simp [he, penultimate, recount_keeps_blocks,
              List.dropLast_concat, List.getLast?_concat, mkNewlineBlock]
          · simp [he, recount_keeps_flag]
        · refine ⟨trivial, ⟨s.text.length, ?_⟩,
            fun _ hew => absurd hew he⟩
          simp [he, recount_keeps_blocks, List.getLast?_concat]
    | emoji d =>
        simp only [updateSkipBlock, hl]
        by_cases he : s.endsWithParagraphDetails
        · refine ⟨trivial, ⟨s.text.length + 1, ?_⟩,
            fun _ _ => ⟨?_, ?_⟩⟩
          · simp [he, recount_keeps_blocks, List.getLast?_concat]
          · simp [he, penultimate, recount_keeps_blocks,
              List.dropLast_concat, List.getLast?_concat, mkNewlineBlock]
          · simp [he, recount_keeps_flag]
        · refine ⟨trivial, ⟨s.text.length, ?_⟩,
            fun _ hew => absurd hew he⟩
          simp [he, recount_keeps_blocks, List.getLast?_concat]
    | customEmoji d ed =>
        simp only [updateSkipBlock, hl]
        by_cases he : s.endsWithParagraphDetails
        · refine ⟨trivial, ⟨s.text.length + 1, ?_⟩,
            fun _ _ => ⟨?_, ?_⟩⟩
          · simp [he, recount_keeps_blocks, List.getLast?_concat]
          · simp [he, penultimate, recount_keeps_blocks,
              List.dropLast_concat, List.getLast?_concat, mkNewlineBlock]
          · simp [he, recount_keeps_flag]
        · refine ⟨trivial, ⟨s.text.length, ?_⟩,
            fun _ hew => absurd hew he⟩
          simp [he, recount_keeps_blocks, List.getLast?_concat]

theorem removeSkipBlock_noSkip (s : TextString)
    (h : s.hasSkipBlock = false) : removeSkipBlock s = (false, s) := by
  rcases hl : s.blocks.getLast? with _ | b
  · simp only [removeSkipBlock, hl]
  · cases b with
    | skip d =>
        exact absurd (by simp [TextString.hasSkipBlock, hl, Block.isSkip])
          (by simp [h] : ¬ s.hasSkipBlock = true)
    | text d ws => simp only [removeSkipBlock, hl]
    | newline d p => simp only [removeSkipBlock, hl]
    | emoji d => simp only [removeSkipBlock, hl]
    | customEmoji d ed => simp only [removeSkipBlock, hl]

theorem removeSkipBlock_hasSkip (s : TextString)
    (h : s.hasSkipBlock = true) : (removeSkipBlock s).1 = true := by
  rcases hl : s.blocks.getLast? with _ | b
  · exact absurd h (by simp [TextString.hasSkipBlock, hl])
  · cases b with
    | skip d =>
        by_cases hf : s.skipBlockAddedNewline
        · simp [removeSkipBlock, hl, hf]
        · simp [removeSkipBlock, hl, hf]
    | text d ws =>
        exact absurd h (by simp [TextString.hasSkipBlock, hl, Block.isSkip])
    | newline d p =>
        exact absurd h (by simp [TextString.hasSkipBlock, hl, Block.isSkip])
    | emoji d =>
        exact absurd h (by simp [TextString.hasSkipBlock, hl, Block.isSkip])
    | customEmoji d ed =>
        exact absurd h (by simp [TextString.hasSkipBlock, hl, Block.isSkip])

theorem recount_keeps_startP (s : TextString) :
    (recountNaturalSizeFn s).startParagraphIndex = s.startParagraphIndex := rfl

theorem recount_keeps_paragraphs (s : TextString) :
    (recountNaturalSizeFn s).paragraphs = s.paragraphs := rfl

theorem recount_keeps_style (s : TextString) :
    (recountNaturalSizeFn s).style = s.style := rfl

theorem recount_keeps_minResize (s : TextString) :
    (recountNaturalSizeFn s).minResizeWidth = s.minResizeWidth := rfl

theorem recount_keeps_links (s : TextString) :
    (recountNaturalSizeFn s).links = s.links := rfl

theorem removeSkip_update_roundtrip (s : TextString) (w h : Int)
    (hsb : s.hasSkipBlock = false) (hflag : s.skipBlockAddedNewline = false)
    (hcoh : Coherent s) :
    removeSkipBlock (updateSkipBlock s w h).2 = (true, s) := by
  obtain ⟨t, bl, sp, pg, sty, mr, lk, fl, mw, mh, ew⟩ := s
  simp only at hflag
  subst hflag
  rcases hl : bl.getLast? with _ | b
  ·
    by_cases he : ew
    · subst he
      simp only [updateSkipBlock, hl, ite_true]
      simp only [removeSkipBlock, recount_keeps_blocks, recount_keeps_flag,
        recount_keeps_text, recount_keeps_startP, recount_keeps_paragraphs,
        recount_keeps_style, recount_keeps_minResize, recount_keeps_links,
        mkSkipBlock, mkNewlineBlock,
        List.getLast?_concat, List.dropLast_concat]
      simp only [Nat.add_sub_cancel, List.length_append, List.length_cons,
        List.length_nil, List.append_assoc, List.take_left, if_true]
      rw [Prod.mk.injEq]
      refine ⟨rfl, ?_⟩
      conv_rhs => rw [← hcoh]
      rfl
    ·
      simp only [Bool.not_eq_true] at he
      subst he
      simp only [updateSkipBlock, hl, ite_false]
      simp only [removeSkipBlock, recount_keeps_blocks, recount_keeps_flag,
        recount_keeps_text, recount_keeps_startP, recount_keeps_paragraphs,
        recount_keeps_style, recount_keeps_minResize, recount_keeps_links,
        mkSkipBlock, List.getLast?_concat, List.dropLast_concat]
      simp only [Nat.add_sub_cancel, Bool.false_eq_true, if_false,
        List.take_left, ite_false]
      rw [Prod.mk.injEq]
      refine ⟨rfl, ?_⟩
      conv_rhs => rw [← hcoh]
      rfl
  · cases b with
    | skip d =>
        simp [TextString.hasSkipBlock, hl, Block.isSkip] at hsb
    | text d ws =>
    by_cases he : ew
    · subst he
      simp only [updateSkipBlock, hl, ite_true]
      simp only [removeSkipBlock, recount_keeps_blocks, recount_keeps_flag,
        recount_keeps_text, recount_keeps_startP, recount_keeps_paragraphs,
        recount_keeps_style, recount_keeps_minResize, recount_keeps_links,
        mkSkipBlock, mkNewlineBlock,
        List.getLast?_concat, List.dropLast_concat]
      simp only [Nat.add_sub_cancel, List.length_append, List.length_cons,
        List.length_nil, List.append_assoc, List.take_left, if_true]
      rw [Prod.mk.injEq]
      refine ⟨rfl, ?_⟩
      conv_rhs => rw [← hcoh]
      rfl
    ·
      simp only [Bool.not_eq_true] at he
      subst he
      simp only [updateSkipBlock, hl, ite_false]
      simp only [removeSkipBlock, recount_keeps_blocks, recount_keeps_flag,
        recount_keeps_text, recount_keeps_startP, recount_keeps_paragraphs,
        recount_keeps_style, recount_keeps_minResize, recount_keeps_links,
        mkSkipBlock, List.getLast?_concat, List.dropLast_concat]
      simp only [Nat.add_sub_cancel, Bool.false_eq_true, if_false,
        List.take_left, ite_false]
      rw [Prod.mk.injEq]
      refine ⟨rfl, ?_⟩
      conv_rhs => rw [← hcoh]
      rfl
    | newline d p =>
    by_cases he : ew
    · subst he
      simp only [updateSkipBlock, hl, ite_true]
      simp only [removeSkipBlock, recount_keeps_blocks, recount_keeps_flag,
        recount_keeps_text, recount_keeps_startP, recount_keeps_paragraphs,
        recount_keeps_style, recount_keeps_minResize, recount_keeps_links,
        mkSkipBlock, mkNewlineBlock,
        List.getLast?_concat, List.dropLast_concat]
      simp only [Nat.add_sub_cancel, List.length_append, List.length_cons,
        List.length_nil, List.append_assoc, List.take_left, if_true]
      rw [Prod.mk.injEq]
      refine ⟨rfl, ?_⟩
      conv_rhs => rw [← hcoh]
      rfl
    ·
      simp only [Bool.not_eq_true] at he
      subst he
      simp only [updateSkipBlock, hl, ite_false]
      simp only [removeSkipBlock, recount_keeps_blocks, recount_keeps_flag,
        recount_keeps_text, recount_keeps_startP, recount_keeps_paragraphs,
        recount_keeps_style, recount_keeps_minResize, recount_keeps_links,
        mkSkipBlock, List.getLast?_concat, List.dropLast_concat]
      simp only [Nat.add_sub_cancel, Bool.false_eq_true, if_false,
        List.take_left, ite_false]
      rw [Prod.mk.injEq]
      refine ⟨rfl, ?_⟩
      conv_rhs => rw [← hcoh]
      rfl
    | emoji d =>
    by_cases he : ew
    · subst he
      simp only [updateSkipBlock, hl, ite_true]
      simp only [removeSkipBlock, recount_keeps_blocks, recount_keeps_flag,
        recount_keeps_text, recount_keeps_startP, recount_keeps_paragraphs,
        recount_keeps_style, recount_keeps_minResize, recount_keeps_links,
        mkSkipBlock, mkNewlineBlock,
        List.getLast?_concat, List.dropLast_concat]
      simp only [Nat.add_sub_cancel, List.length_append, List.length_cons,
        List.length_nil, List.append_assoc, List.take_left, if_true]
      rw [Prod.mk.injEq]
      refine ⟨rfl, ?_⟩
      conv_rhs => rw [← hcoh]
      rfl
    ·
      simp only [Bool.not_eq_true] at he
      subst he
      simp only [updateSkipBlock, hl, ite_false]
      simp only [removeSkipBlock, recount_keeps_blocks, recount_keeps_flag,
        recount_keeps_text, recount_keeps_startP, recount_keeps_paragraphs,
        recount_keeps_style, recount_keeps_minResize, recount_keeps_links,
        mkSkipBlock, List.getLast?_concat, List.dropLast_concat]
      simp only [Nat.add_sub_cancel, Bool.false_eq_true, if_false,
        List.take_left, ite_false]
      rw [Prod.mk.injEq]
      refine ⟨rfl, ?_⟩
      conv_rhs => rw [← hcoh]
      rfl
    | customEmoji d ed =>
    by_cases he : ew
    · subst he
      simp only [updateSkipBlock, hl, ite_true]
      simp only [removeSkipBlock, recount_keeps_blocks, recount_keeps_flag,
        recount_keeps_text, recount_keeps_startP, recount_keeps_paragraphs,
        recount_keeps_style, recount_keeps_minResize, recount_keeps_links,
        mkSkipBlock, mkNewlineBlock,
        List.getLast?_concat, List.dropLast_concat]
      simp only [Nat.add_sub_cancel, List.length_append, List.length_cons,
        List.length_nil, List.append_assoc, List.take_left, if_true]
      rw [Prod.mk.injEq]
      refine ⟨rfl, ?_⟩
      conv_rhs => rw [← hcoh]
      rfl
    ·
      simp only [Bool.not_eq_true] at he
      subst he
      simp only [updateSkipBlock, hl, ite_false]
      simp only [removeSkipBlock, recount_keeps_blocks, recount_keeps_flag,
        recount_keeps_text, recount_keeps_startP, recount_keeps_paragraphs,
        recount_keeps_style, recount_keeps_minResize, recount_keeps_links,
        mkSkipBlock, List.getLast?_concat, List.dropLast_concat]
      simp only [Nat.add_sub_cancel, Bool.false_eq_true, if_false,
        List.take_left, ite_false]
      rw [Prod.mk.injEq]
      refine ⟨rfl, ?_⟩
      conv_rhs => rw [← hcoh]
      rfl

/-- C10: `updateSkipBlock(w, h)` returns `false` and leaves the whole
string state (text, blocks, cached natural size) unchanged exactly when
the last block is already a Skip block of that size; in every other case
it returns `true` and afterwards the final block is a Skip block of the
requested size, with an auto-inserted Newline before it (and the
`_skipBlockAddedNewline` flag set) when the string ends with paragraph
framing and had no trailing Skip; `removeSkipBlock` returns `false` (and
changes nothing) exactly when there is no trailing Skip block, and undoes
a fresh insertion exactly (round trip back to the original state). -/
theorem updateSkipBlock_removeSkipBlock_spec (s : TextString) (w h : Int) :
    (∀ d, s.blocks.getLast? = some (.skip d) → ftoInt d.fwidth = w →
      d.height = h → updateSkipBlock s w h = (false, s)) ∧
    ((∀ d, s.blocks.getLast? = some (.skip d) →
        ¬ (ftoInt d.fwidth = w ∧ d.height = h)) →
      (updateSkipBlock s w h).1 = true ∧
      (∃ p, ((updateSkipBlock s w h).2).blocks.getLast?
          = some (mkSkipBlock p w h)) ∧
      (s.hasSkipBlock = false → s.endsWithParagraphDetails = true →
        penultimate ((updateSkipBlock s w h).2).blocks
            = some (mkNewlineBlock s.text.length) ∧
          ((updateSkipBlock s w h).2).skipBlockAddedNewline = true)) ∧
    (s.hasSkipBlock = false → removeSkipBlock s = (false, s)) ∧
    (s.hasSkipBlock = true → (removeSkipBlock s).1 = true) ∧
    (s.hasSkipBlock = false → s.skipBlockAddedNewline = false →
      Coherent s → removeSkipBlock (updateSkipBlock s w h).2 = (true, s)) :=
  ⟨fun d hd hw hh => updateSkipBlock_same s w h d hd hw hh,
   fun hnd => updateSkipBlock_result s w h hnd,
   fun hns => removeSkipBlock_noSkip s hns,
   fun hs => removeSkipBlock_hasSkip s hs,
   fun hns hfl hcoh => removeSkip_update_roundtrip s w h hns hfl hcoh⟩

theorem updateSkipBlock_removeSkipBlock_spec_witness :
    updateSkipBlock strWithSkip 1 7 = (false, strWithSkip) ∧
      removeSkipBlock (updateSkipBlock strPlain2 3 9).2 = (true, strPlain2) :=
  ⟨(updateSkipBlock_removeSkipBlock_spec strWithSkip 1 7).1
      ⟨5, 0, 0, 64, 0, 0, 7⟩ (by decide) (by decide) (by decide),
   (updateSkipBlock_removeSkipBlock_spec strPlain2 3 9).2.2.2.2
      (by decide) (by decide)
      (by decide : recountNaturalSizeFn strPlain2 = strPlain2)⟩

/-! ### C2 — breaker at the natural width vs. the natural minimum height

The proof relates the state of `recountNaturalSize`'s accumulation loop to
the state of `enumerateLines` run at (any width at least) the natural
maximum width, by a parallel induction over the block list: at such a
width every block extends its line (`newWidthLeft >= 0` always holds,
because the natural pass recorded every intermediate accumulated width in
`maxWidth`), so the breaker emits exactly the hard-break lines whose
heights the natural pass summed. -/

theorem naturalStep_maxW_le (s : TextString) (n : NaturalState)
    (b : Block) : n.maxW ≤ (naturalStep s n b).maxW := by
  cases b <;> simp [naturalStep] <;> split <;> simp [le_max_left]

theorem naturalStep_width_le_maxW (s : TextString) (n : NaturalState)
    (b : Block) : n.width ≤ (naturalStep s n b).maxW := by
  cases b <;> simp [naturalStep] <;> split <;> simp [le_max_right]

theorem naturalFold_maxW_le (s : TextString) (bs : List Block)
    (n : NaturalState) :
    n.maxW ≤ (bs.foldl (naturalStep s) n).maxW := by
  induction bs generalizing n with
  | nil => simp
  | cons b rest ih =>
      exact le_trans (naturalStep_maxW_le s n b) (ih (naturalStep s n b))

theorem naturalFinalize_maxW_le (s : TextString) (n : NaturalState) :
    n.maxW ≤ (naturalFinalize s n).maxW := by
  simp only [naturalFinalize]
  split
  · simp [le_max_left]
  · exact le_rfl

/-- Every accumulated width value is either nonpositive or recorded in the
final `maxWidth` (by the `accumulate_max` after each block and at the
end). -/
theorem naturalFold_width_capture (s : TextString) (bs : List Block)
    (n : NaturalState) :
    n.width ≤ 0 ∨
      n.width ≤ (naturalFinalize s (bs.foldl (naturalStep s) n)).maxW := by
  cases bs with
  | nil =>
      simp only [List.foldl_nil, naturalFinalize]
      split
    
      · right; simp [le_max_right]
      · left; omega
  | cons b rest =>
      right
      refine le_trans (naturalStep_width_le_maxW s n b) ?_
      exact le_trans (naturalFold_maxW_le s rest _)
        (naturalFinalize_maxW_le s _)

/-- The correspondence between the natural-size accumulator state and the
breaker state when no width-driven break ever occurs.  The breaker keeps
the current paragraph's top padding pending (`e.pad.top`, charged to the
next emitted line) while the natural pass charges it eagerly, hence the
bookkeeping equation `hmh`. -/
structure C2Inv (W64 : Int) (n : NaturalState) (e : EnumState) : Prop where
  hpi : e.pindex = n.pindex
  hpl : e.pad.left = n.pad.left
  hpr : e.pad.right = n.pad.right
  hpb : e.pad.bottom = n.pad.bottom
  hnt : n.pad.top = 0
  hlh : e.lineHeight = n.lineHeight
  hrb : e.lastRB = n.lastRB
  hrp : e.lastRP = n.lastRP
  hwl : e.widthLeft = W64 - n.width
  hmh : n.minH = sumHeights e.lines + e.pad.top

theorem sumHeights_append (ls : List Line) (l : Line) :
    sumHeights (ls ++ [l]) = sumHeights ls + l.height := by
  simp [sumHeights]

theorem blockStep_fit (s : TextString) (W64 : Int) (be : Bool)
    (e : EnumState) (b : Block) (hb : b.isNewline = false)
    (hfit : 0 ≤ e.widthLeft - e.lastRB - (e.lastRP + b.fwidth - b.rbearing)) :
    blockStep s W64 be e b =
      { e with
          lastRB := b.rbearing
          lastRP := b.rpadding
          widthLeft :=
            e.widthLeft - e.lastRB - (e.lastRP + b.fwidth - b.rbearing)
          lineHeight := max e.lineHeight b.height
          longWordLine := false
          cur := e.cur ++ blockUnits b } := by
  cases b with
  | newline d p => simp [Block.isNewline] at hb
  | text d ws => simp only [blockStep]; rw [if_pos hfit]
  | skip d => simp only [blockStep]; rw [if_pos hfit]
  | emoji d => simp only [blockStep]; rw [if_pos hfit]
  | customEmoji d ed => simp only [blockStep]; rw [if_pos hfit]

theorem naturalStep_notNewline (s : TextString) (n : NaturalState)
    (b : Block) (hb : b.isNewline = false) :
    naturalStep s n b =
      { n with
          maxW := max n.maxW n.width
          width := n.width + n.lastRB + (n.lastRP + b.fwidth - b.rbearing)
          lineHeight := max n.lineHeight b.height
          lastRB := b.rbearing
          lastRP := b.rpadding } := by
  cases b with
  | newline d p => simp [Block.isNewline] at hb
  | text d ws => rfl
  | skip d => rfl
  | emoji d => rfl
  | customEmoji d ed => rfl

theorem c2_fit_of_bound (s : TextString) (rest : List Block)
    (n : NaturalState) (e : EnumState) (b : Block) (W64 : Int)
    (hW : 0 ≤ W64) (inv : C2Inv W64 n e) (hb : b.isNewline = false)
    (hbound :
      (naturalFinalize s
        (rest.foldl (naturalStep s) (naturalStep s n b))).maxW ≤ W64) :
    0 ≤ e.widthLeft - e.lastRB - (e.lastRP + b.fwidth - b.rbearing) := by
  have hw : (naturalStep s n b).width
      = n.width + n.lastRB + (n.lastRP + b.fwidth - b.rbearing) := by
    rw [naturalStep_notNewline s n b hb]
  rcases naturalFold_width_capture s rest (naturalStep s n b) with hc | hc
  · rw [hw] at hc
    rw [inv.hwl, inv.hrb, inv.hrp]
    omega
  · have hcb := le_trans hc hbound
    rw [hw] at hcb
    rw [inv.hwl, inv.hrb, inv.hrp]
    omega

theorem c2_step_fit (s : TextString) (W64 : Int) (be : Bool)
    (n : NaturalState) (e : EnumState) (b : Block) (inv : C2Inv W64 n e)
    (hb : b.isNewline = false)
    (hfit : 0 ≤ e.widthLeft - e.lastRB - (e.lastRP + b.fwidth - b.rbearing)) :
    C2Inv W64 (naturalStep s n b) (blockStep s W64 be e b) := by
  rw [blockStep_fit s W64 be e b hb hfit, naturalStep_notNewline s n b hb]
  refine ⟨inv.hpi, inv.hpl, inv.hpr, inv.hpb, inv.hnt, ?_, ?_, ?_, ?_, ?_⟩
  · simp [inv.hlh]
  · simp [inv.hrb]
  · simp [inv.hrp]
  · simp only
    rw [inv.hwl, inv.hrb, inv.hrp]
    ring
  · simpa using inv.hmh

theorem c2_fold (s : TextString) (be : Bool) (W64 : Int) (hW : 0 ≤ W64)
    (bs : List Block) (n : NaturalState) (e : EnumState)
    (inv : C2Inv W64 n e)
    (hbound :
      (naturalFinalize s (bs.foldl (naturalStep s) n)).maxW ≤ W64) :
    C2Inv W64 (bs.foldl (naturalStep s) n)
      (bs.foldl (blockStep s W64 be) e) := by
  induction bs generalizing n e with
  | nil => exact inv
  | cons b rest ih =>
      simp only [List.foldl_cons] at hbound ⊢
      refine ih (naturalStep s n b) (blockStep s W64 be e b) ?_ hbound
      cases b with
      | newline d pidx =>
          by_cases hp : n.pindex ≠ pidx
          · have hp' : e.pindex ≠ pidx := by rw [inv.hpi]; exact hp
            refine ⟨?_, ?_, ?_, ?_, ?_, ?_, ?_, ?_, ?_, ?_⟩ <;>
              simp [naturalStep, blockStep, if_pos hp, if_pos hp',
                Margins.setTop, inv.hpi, inv.hpl, inv.hpr, inv.hpb,
                inv.hnt, inv.hlh, inv.hrb, inv.hrp, inv.hwl, inv.hmh,
                sumHeights_append] <;> ring
          · have hp' : ¬ e.pindex ≠ pidx := by rw [inv.hpi]; exact hp
            refine ⟨?_, ?_, ?_, ?_, ?_, ?_, ?_, ?_, ?_, ?_⟩ <;>
              simp [naturalStep, blockStep, if_neg hp, if_neg hp',
                Margins.setTop, inv.hpi, inv.hpl, inv.hpr, inv.hpb,
                inv.hnt, inv.hlh, inv.hrb, inv.hrp, inv.hwl, inv.hmh,
                sumHeights_append] <;> ring
      | text d ws =>
          exact c2_step_fit s W64 be n e (Block.text d ws) inv rfl
            (c2_fit_of_bound s rest n e (Block.text d ws) W64 hW inv rfl hbound)
      | skip d =>
          exact c2_step_fit s W64 be n e (Block.skip d) inv rfl
            (c2_fit_of_bound s rest n e (Block.skip d) W64 hW inv rfl hbound)
      | emoji d =>
          exact c2_step_fit s W64 be n e (Block.emoji d) inv rfl
            (c2_fit_of_bound s rest n e (Block.emoji d) W64 hW inv rfl hbound)
      | customEmoji d ed =>
          exact c2_step_fit s W64 be n e (Block.customEmoji d ed) inv rfl
            (c2_fit_of_bound s rest n e (Block.customEmoji d ed) W64 hW inv rfl hbound)
/-- A block with nonnegative bearing/padding whose width exceeds its right
bearing — it strictly advances the line it is placed on.  (Newline blocks
are exempt: they never extend a line.) -/
def PositiveBlockAdvance (b : Block) : Prop :=
  b.isNewline = true ∨
    (0 ≤ b.rbearing ∧ 0 ≤ b.rpadding ∧ b.rbearing < b.fwidth)

instance (b : Block) : Decidable (PositiveBlockAdvance b) := by
  unfold PositiveBlockAdvance; infer_instance

/-- Nonnegative horizontal paragraph padding. -/
def NonnegHPad (s : TextString) : Prop :=
  ∀ i, 0 ≤ (s.paraPadding i).left ∧ 0 ≤ (s.paraPadding i).right

structure NatPos (n : NaturalState) : Prop where
  hrb : 0 ≤ n.lastRB
  hrp : 0 ≤ n.lastRP
  hpl : 0 ≤ n.pad.left
  hpr : 0 ≤ n.pad.right
  hw : 0 ≤ n.width

theorem natPos_step (s : TextString) (n : NaturalState) (b : Block)
    (hp : NatPos n) (hg : PositiveBlockAdvance b) (hpad : NonnegHPad s) :
    NatPos (naturalStep s n b) := by
  cases b with
  | newline d pidx =>
      by_cases hq : n.pindex ≠ pidx
      · have h1 := (hpad pidx).1
        have h2 := (hpad pidx).2
        refine ⟨?_, ?_, ?_, ?_, ?_⟩ <;>
          simp [naturalStep, if_pos hq, Margins.setTop] <;> omega
      · have := hp.hpl
        have := hp.hpr
        refine ⟨?_, ?_, ?_, ?_, ?_⟩ <;>
          simp [naturalStep, if_neg hq, Margins.setTop] <;> omega
  | text d ws =>
      rcases hg with hg | hg
      · simp [Block.isNewline] at hg
      · obtain ⟨h1, h2, h3⟩ := hg
        simp only [Block.rbearing, Block.rpadding, Block.fwidth,
          Block.data] at h1 h2 h3
        have := hp.hrb; have := hp.hrp; have := hp.hw
        refine ⟨?_, ?_, ?_, ?_, ?_⟩ <;>
          simp [naturalStep, Block.rbearing, Block.rpadding, Block.fwidth,
            Block.data] <;>
          first | exact hp.hpl | exact hp.hpr | omega
  | skip d =>
      rcases hg with hg | hg
      · simp [Block.isNewline] at hg
      · obtain ⟨h1, h2, h3⟩ := hg
        simp only [Block.rbearing, Block.rpadding, Block.fwidth,
          Block.data] at h1 h2 h3
        have := hp.hrb; have := hp.hrp; have := hp.hw
        refine ⟨?_, ?_, ?_, ?_, ?_⟩ <;>
          simp [naturalStep, Block.rbearing, Block.rpadding, Block.fwidth,
            Block.data] <;>
          first | exact hp.hpl | exact hp.hpr | omega
  | emoji d =>
      rcases hg with hg | hg
      · simp [Block.isNewline] at hg
      · obtain ⟨h1, h2, h3⟩ := hg
        simp only [Block.rbearing, Block.rpadding, Block.fwidth,
          Block.data] at h1 h2 h3
        have := hp.hrb; have := hp.hrp; have := hp.hw
        refine ⟨?_, ?_, ?_, ?_, ?_⟩ <;>
          simp [naturalStep, Block.rbearing, Block.rpadding, Block.fwidth,
            Block.data] <;>
          first | exact hp.hpl | exact hp.hpr | omega
  | customEmoji d ed =>
      rcases hg with hg | hg
      · simp [Block.isNewline] at hg
      · obtain ⟨h1, h2, h3⟩ := hg
        simp only [Block.rbearing, Block.rpadding, Block.fwidth,
          Block.data] at h1 h2 h3
        have := hp.hrb; have := hp.hrp; have := hp.hw
        refine ⟨?_, ?_, ?_, ?_, ?_⟩ <;>
          simp [naturalStep, Block.rbearing, Block.rpadding, Block.fwidth,
            Block.data] <;>
          first | exact hp.hpl | exact hp.hpr | omega

theorem natPos_fold (s : TextString) (bs : List Block) (n : NaturalState)
    (hp : NatPos n) (hg : ∀ b ∈ bs, PositiveBlockAdvance b)
    (hpad : NonnegHPad s) :
    NatPos (bs.foldl (naturalStep s) n) := by
  induction bs generalizing n with
  | nil => exact hp
  | cons b rest ih =>
      exact ih (naturalStep s n b)
        (natPos_step s n b hp (hg b (by simp)) hpad)
        (fun x hx => hg x (by simp [hx]))

theorem c2_last_state (s : TextString) (init : List Block) (b : Block)
    (n : NaturalState) (hp : NatPos n)
    (hg : ∀ x ∈ init ++ [b], PositiveBlockAdvance x)
    (hpad : NonnegHPad s)
    (hb : b.isNewline = false) (hh : 0 < b.height) :
    0 < ((init ++ [b]).foldl (naturalStep s) n).lineHeight ∧
      0 < ((init ++ [b]).foldl (naturalStep s) n).width := by
  rw [List.foldl_append]
  have hm : NatPos (init.foldl (naturalStep s) n) :=
    natPos_fold s init n hp
      (fun x hx => hg x (by simp [hx])) hpad
  have hgb := hg b (by simp)
  rcases hgb with hgb | hgb
  · rw [hb] at hgb; exact absurd hgb (by simp)
  · rw [List.foldl_cons, List.foldl_nil,
      naturalStep_notNewline s _ b hb]
    obtain ⟨h1, h2, h3⟩ := hgb
    have := hm.hrb
    have := hm.hrp
    have := hm.hw
    constructor
    · simp only
      omega
    · simp only
      omega

theorem le_64_fceil (v : Int) : v ≤ 64 * fceil v := by
  have h : fceil v = (v + 63) / 64 := rfl
  rw [h]
  omega

theorem fceil_nonneg (v : Int) (h : 0 ≤ v) : 0 ≤ fceil v := by
  have hh : fceil v = (v + 63) / 64 := rfl
  rw [hh]
  omega

theorem naturalFinal_maxW_nonneg (s : TextString) :
    0 ≤ (naturalFinal s).maxW := by
  have h0 : (naturalInit s).maxW = 0 := rfl
  have h1 := naturalFold_maxW_le s s.blocks (naturalInit s)
  have h2 := naturalFinalize_maxW_le s
    (s.blocks.foldl (naturalStep s) (naturalInit s))
  unfold naturalFinal
  omega

/-- C2 counterexample: for a string that starts inside a framed paragraph
(top padding 10) with one 1px block of height 5, `recountNaturalSize`
charges the start paragraph's top padding twice (once when initialising
`_minHeight` and again in the final-width branch, because the top is never
zeroed without a paragraph transition): `_minHeight` is 25, while the
breaker run at the natural maximum width emits lines whose heights sum to
15. -/
theorem enum_sum_heights_ne_minHeight :
    naturalMaxWidthPx strFramedStart = 1 ∧
      naturalMinHeight strFramedStart = 25 ∧
      sumHeights (enumerateLinesU strFramedStart
        (naturalMaxWidthPx strFramedStart) false) = 15 ∧
      sumHeights (enumerateLinesU strFramedStart
          (naturalMaxWidthPx strFramedStart) false)
        ≠ naturalMinHeight strFramedStart := by
  decide

/-- C2 (amended): the sum of per-line heights emitted by the line breaker
at the natural maximum width equals the natural minimum height, for every
string that (i) does not start inside a framed paragraph
(`_startParagraphIndex = 0`), (ii) has positive block heights, (iii) has
blocks that strictly advance their line (nonnegative bearing/padding,
width above the right bearing), with nonnegative horizontal paragraph
padding, and (iv) does not end with a Newline block.  Mixing framed
paragraphs and plain lines in the middle of the string is fully covered. -/
theorem enum_sum_heights_eq_minHeight (s : TextString) (be : Bool)
    (h0 : s.startParagraphIndex = 0)
    (hpos : ∀ b ∈ s.blocks, 0 < b.height)
    (hgood : ∀ b ∈ s.blocks, PositiveBlockAdvance b)
    (hpad : NonnegHPad s)
    (hlast : ∀ b, s.blocks.getLast? = some b → b.isNewline = false) :
    sumHeights (enumerateLinesU s (naturalMaxWidthPx s) be)
      = naturalMinHeight s := by
  have hpad0 : s.paraPadding s.startParagraphIndex = Margins.zero := by
    rw [h0]
    simp [TextString.paraPadding, TextString.paragraphByIndex,
      TextString.paragraphPadding]
  set W64 := availWidth64 s (naturalMaxWidthPx s) with hW64def
  have hW64ge : 64 * naturalMaxWidthPx s ≤ W64 := by
    rw [hW64def]
    unfold availWidth64
    have : naturalMaxWidthPx s ≤ max (naturalMaxWidthPx s) s.minResizeWidth :=
      le_max_left _ _
    omega
  have hWmax : (naturalFinal s).maxW ≤ W64 :=
    le_trans (le_64_fceil _) hW64ge
  have hW0 : 0 ≤ W64 := by
    have h1 := naturalFinal_maxW_nonneg s
    have h2 := fceil_nonneg _ h1
    have : (0:Int) ≤ 64 * naturalMaxWidthPx s := by
      unfold naturalMaxWidthPx
      omega
    omega
  have inv0 : C2Inv W64 (naturalInit s) (enumInit s W64) := by
    refine ⟨rfl, rfl, rfl, rfl, ?_, rfl, rfl, rfl, ?_, ?_⟩
    · show (s.paraPadding s.startParagraphIndex).top = 0
      rw [hpad0]; rfl
    · show W64 - (s.paraPadding s.startParagraphIndex).left -
        (s.paraPadding s.startParagraphIndex).right = W64 -
          ((s.paraPadding s.startParagraphIndex).left +
            (s.paraPadding s.startParagraphIndex).right)
      ring
    · show (s.paraPadding s.startParagraphIndex).top
        = sumHeights [] + (s.paraPadding s.startParagraphIndex).top
      simp [sumHeights]
  have invF := c2_fold s be W64 hW0 s.blocks (naturalInit s)
    (enumInit s W64) inv0 hWmax
  set nF := s.blocks.foldl (naturalStep s) (naturalInit s) with hnF
  set eF := s.blocks.foldl (blockStep s W64 be) (enumInit s W64) with heF
  have henum : enumerateLinesU s (naturalMaxWidthPx s) be =
      eF.lines ++
        (if eF.widthLeft < W64 then
          [⟨W64 - eF.widthLeft,
            eF.lineHeight + eF.pad.top + eF.pad.bottom, eF.cur⟩]
         else []) := rfl
  have hmin : naturalMinHeight s = (naturalFinalize s nF).minH := rfl
  rcases hlb : s.blocks.getLast? with _ | b
  · have hbe : s.blocks = [] := List.getLast?_eq_none_iff.mp hlb
    have hnF0 : nF = naturalInit s := by rw [hnF, hbe, List.foldl_nil]
    have heF0 : eF = enumInit s W64 := by rw [heF, hbe, List.foldl_nil]
    have hw0 : nF.width = 0 := by
      rw [hnF0]
      show (s.paraPadding s.startParagraphIndex).left +
        (s.paraPadding s.startParagraphIndex).right = 0
      rw [hpad0]; rfl
    have hwl0 : eF.widthLeft = W64 := by
      rw [invF.hwl, hw0]; ring
    rw [henum, hmin]
    rw [if_neg (by rw [hwl0]; exact lt_irrefl W64)]
    have hfin : (naturalFinalize s nF).minH = nF.minH := by
      unfold naturalFinalize
      rw [if_neg (by rw [hw0]; exact lt_irrefl 0)]
    rw [hfin, invF.hmh, List.append_nil]
    have hl0 : eF.lines = [] := by rw [heF0]; rfl
    have ht0 : eF.pad.top = 0 := by
      rw [heF0]
      show (s.paraPadding s.startParagraphIndex).top = 0
      rw [hpad0]; rfl
    rw [hl0, ht0, add_zero]
  · obtain ⟨init, hinit⟩ := List.getLast?_eq_some_iff.mp hlb
    have hbnl : b.isNewline = false := hlast b hlb
    have hp0 : NatPos (naturalInit s) := by
      refine ⟨le_rfl, le_rfl, ?_, ?_, ?_⟩
      · show (0:Int) ≤ (s.paraPadding s.startParagraphIndex).left
        rw [hpad0]; exact le_rfl
      · show (0:Int) ≤ (s.paraPadding s.startParagraphIndex).right
        rw [hpad0]; exact le_rfl
      · show (0:Int) ≤ (s.paraPadding s.startParagraphIndex).left +
          (s.paraPadding s.startParagraphIndex).right
        rw [hpad0]; exact le_rfl
    have hbs := c2_last_state s init b (naturalInit s) hp0
      (by rw [← hinit]; exact hgood) hpad hbnl
      (hpos b (by rw [hinit]; simp))
    rw [← hinit] at hbs
    rw [← hnF] at hbs
    obtain ⟨hlh, hwpos⟩ := hbs
    have hflush : eF.widthLeft < W64 := by
      rw [invF.hwl]; omega
    rw [henum, hmin]
    rw [if_pos hflush]
    have hfin : (naturalFinalize s nF).minH
        = nF.minH + nF.pad.top + nF.lineHeight + nF.pad.bottom := by
      unfold naturalFinalize
      rw [if_pos hwpos]
      have : ¬ nF.lineHeight = 0 := by omega
      simp only [this, if_false]
    rw [hfin, sumHeights_append]
    simp only
    rw [invF.hmh, invF.hnt, invF.hlh, invF.hpb]
    ring

theorem strMixed_nonnegHPad : NonnegHPad strMixed := by
  intro i
  match i with
  | 0 => exact ⟨by decide, by decide⟩
  | 1 => exact ⟨by decide, by decide⟩
  | (n + 2) =>
      have hni : strMixed.paragraphs.get? (n + 1) = none := by
        apply List.get?_eq_none.mpr
        show strMixed.paragraphs.length ≤ n + 1
        have : strMixed.paragraphs.length = 1 := by decide
        omega
      have hz : strMixed.paraPadding (n + 2) = Margins.zero := by
        unfold TextString.paraPadding TextString.paragraphByIndex
        rw [if_neg (by omega : ¬ n + 2 = 0)]
        have : n + 2 - 1 = n + 1 := by omega
        rw [this, hni]
        rfl
      rw [hz]
      exact ⟨le_rfl, le_rfl⟩

theorem enum_sum_heights_eq_minHeight_witness :
    sumHeights (enumerateLinesU strMixed (naturalMaxWidthPx strMixed) false)
      = naturalMinHeight strMixed :=
  enum_sum_heights_eq_minHeight strMixed false (by decide) (by decide)
    (by decide) strMixed_nonnegHPad (by decide)

/-! ### C8 — plain-text extraction over the full selection -/

theorem foldl_text_invariant
    (f : ToTextState → MarkdownTagTracker → ToTextState)
    (hf : ∀ x t, (f x t).text = x.text) :
    ∀ (ts : List MarkdownTagTracker) (x : ToTextState),
      (ts.foldl f x).text = x.text := by
  intro ts
  induction ts with
  | nil => intro x; rfl
  | cons tkr rest ih =>
      intro x
      rw [List.foldl_cons, ih, hf]

theorem toTextFlagsChange_text (ce : Bool) (st : ToTextState) (o n : Nat) :
    (toTextFlagsChange ce st o n).text = st.text := by
  unfold toTextFlagsChange
  split
  · rfl
  · refine foldl_text_invariant _ ?_ st.trackers _
    intro x t
    dsimp only
    split
    · rfl
    · split <;> rfl

theorem toTextClickStart_text (st : ToTextState) (t : EntityType) :
    (toTextClickStart st t).text = st.text := rfl

theorem toTextClickFinish_text (cexp ce : Bool) (st : ToTextState)
    (sl : List Char) (lp bp : Nat) (h : Option LinkHandler)
    (t : EntityType) :
    (toTextClickFinish cexp ce st sl lp bp h t).text = st.text := by
  unfold toTextClickFinish
  rcases h with _ | hh
  · rfl
  · dsimp only
    split
    · rfl
    · split <;> rfl

theorem toTextAppendPart_false_text (st : ToTextState)
    (part cd : List Char) :
    (toTextAppendPart false st part cd).text = st.text ++ part := by
  unfold toTextAppendPart
  rw [if_neg (by simp)]

/-- The accumulator component of `enumTextLinkPart` keeps the extracted
text unchanged in the `toText` instance. -/
theorem linkPart_toText_text (s : TextString) (sel : TextSelection)
    (cexp ce : Bool) (acc : ToTextState) (li lp bp bli : Nat) :
    ((enumTextLinkPart s sel toTextClickStart (toTextClickFinish cexp ce)
        acc li lp bp bli).1).text = acc.text := by
  unfold enumTextLinkPart
  split
  · dsimp only
    split
    · rw [toTextClickStart_text]
      split
      · split
        · rw [toTextClickFinish_text]
        · rfl
      · rfl
    · dsimp only
      split
      · split
        · rw [toTextClickFinish_text]
        · rfl
      · rfl
  · rfl

/-- The index components of `enumTextLinkPart` do not depend on the
accumulator, and they preserve the "link position in range" invariant. -/
theorem linkPart_indices {S : Type} (s : TextString) (sel : TextSelection)
    (cs : S → EntityType → S)
    (cf : S → List Char → Nat → Nat → Option LinkHandler → EntityType → S)
    (acc : S) (li lp bp bli : Nat) (bound : Nat)
    (hli : li ≠ 0 → lp < bound) (hbp : bp < bound) :
    ((enumTextLinkPart s sel cs cf acc li lp bp bli).2.1 ≠ 0 →
      (enumTextLinkPart s sel cs cf acc li lp bp bli).2.2 < bound) := by
  unfold enumTextLinkPart
  split
  · dsimp only
    split
    · dsimp only
      intro _
      exact hbp
    · rename_i hnz
      dsimp only
      intro hz
      exact absurd hz hnz
  · dsimp only
    exact hli

theorem textMid_length (t : List Char) (a b : Nat) (hb : b ≤ t.length) :
    (textMid t a b).length = b - a := by
  simp only [textMid, List.length_drop, List.length_take]
  omega

/-- The number of characters `enumerateText` appends for each block over
the full selection: a block spans from its position to the next block's
position (or the end of the text); Skip blocks contribute nothing. -/
def spanSum (s : TextString) : List Block → Nat
  | [] => 0
  | b :: rest =>
      let next := match rest with
        | [] => s.text.length
        | nb :: _ => nb.position
      (if b.isSkip then 0 else next - b.position) + spanSum s rest

theorem flagsPart_toText_text (sel : TextSelection) (ce : Bool)
    (acc : ToTextState) (fl bp bf : Nat) :
    ((enumTextFlagsPart sel (toTextFlagsChange ce) acc fl bp bf).1).text
      = acc.text := by
  unfold enumTextFlagsPart
  split
  · exact toTextFlagsChange_text ce acc fl bf
  · rfl

theorem toTextGo_length (s : TextString) :
    ∀ (bs : List Block) (acc : ToTextState) (li lp fl : Nat),
      List.Chain' (fun a b => a.position < b.position) bs →
      (∀ b ∈ bs, b.position < s.text.length) →
      (li ≠ 0 → lp < s.text.length) →
      (enumTextGo s ⟨0, s.text.length⟩ (toTextAppendPart false)
          toTextClickStart (toTextClickFinish false false)
          (toTextFlagsChange false) acc li lp fl bs).text.length
        = acc.text.length + spanSum s bs := by
  intro bs
  induction bs with
  | nil =>
      intro acc li lp fl _ _ hli
      simp only [enumTextGo, spanSum, Nat.add_zero]
      rw [flagsPart_toText_text, linkPart_toText_text]
  | cons b rest ih =>
      intro acc li lp fl hchain hlt hli
      have hbp : b.position < s.text.length := hlt b (by simp)
      simp only [enumTextGo]
      set L := enumTextLinkPart s ⟨0, s.text.length⟩ toTextClickStart
        (toTextClickFinish false false) acc li lp b.position
        (effLinkIndex s b) with hL
      set F := enumTextFlagsPart ⟨0, s.text.length⟩
        (toTextFlagsChange false) L.1 fl b.position b.flags with hF
      have hltext : L.1.text = acc.text := by
        rw [hL]; exact linkPart_toText_text s _ false false acc li lp _ _
      have hftext : F.1.text = acc.text := by
        rw [hF, flagsPart_toText_text, hltext]
      have hli1 : L.2.1 ≠ 0 → L.2.2 < s.text.length := by
        rw [hL]
        exact linkPart_indices s _ _ _ acc li lp _ _ s.text.length hli hbp
      have hbreak : ¬ ((if L.2.1 ≠ 0 then L.2.2 else b.position)
          ≥ s.text.length) := by
        by_cases hz : L.2.1 ≠ 0
        · rw [if_pos hz]
          exact not_le.mpr (hli1 hz)
        · rw [if_neg hz]
          exact not_le.mpr hbp
      rw [if_neg hbreak]
      have hchain' : List.Chain' (fun a b => a.position < b.position) rest :=
        hchain.tail
      have hlt' : ∀ x ∈ rest, x.position < s.text.length :=
        fun x hx => hlt x (by simp [hx])
      by_cases hsk : b.isSkip
      · rw [if_pos hsk]
        rw [ih F.1 L.2.1 L.2.2 F.2 hchain' hlt' hli1, hftext]
        simp [spanSum, hsk]
      · rw [if_neg hsk]
        have hnext : (match rest with
            | [] => s.text.length
            | nb :: _ => nb.position) ≤ s.text.length ∧
            b.position < (match rest with
            | [] => s.text.length
            | nb :: _ => nb.position) := by
          cases rest with
          | nil => exact ⟨le_rfl, hbp⟩
          | cons nb rest' =>
              refine ⟨le_of_lt (hlt' nb (by simp)), ?_⟩
              exact (List.chain'_cons.mp hchain).1
        obtain ⟨hnle, hblt⟩ := hnext
        have hfromv : max 0 b.position = b.position := by omega
        have hadd : b.position + ((match rest with
            | [] => s.text.length
            | nb :: _ => nb.position) - b.position)
            = (match rest with
            | [] => s.text.length
            | nb :: _ => nb.position) := by omega
        rw [hfromv, hadd]
        have hmin : min s.text.length (match rest with
            | [] => s.text.length
            | nb :: _ => nb.position)
            = (match rest with
            | [] => s.text.length
            | nb :: _ => nb.position) := by omega
        rw [hmin]
        rw [if_pos hblt]
        rw [ih _ L.2.1 L.2.2 F.2 hchain' hlt' hli1]
        rw [toTextAppendPart_false_text]
        simp only [List.length_append, hftext]
        rw [textMid_length s.text _ _ hnle]
        simp only [spanSum, hsk, if_false, Bool.false_eq_true]
        omega

/-- The trailing-Skip deduction: the characters of a trailing Skip run
(its sentinel) are not extracted. -/
def skipDeduction (s : TextString) (bs : List Block) : Nat :=
  match bs.getLast? with
  | some bl => if bl.isSkip then s.text.length - bl.position else 0
  | none => 0

theorem spanSum_add (s : TextString) :
    ∀ (bs : List Block) (b0 : Block), bs.head? = some b0 →
      List.Chain' (fun a b => a.position < b.position) bs →
      (∀ x ∈ bs, x.position < s.text.length) →
      (∀ x ∈ bs.dropLast, x.isSkip = false) →
      spanSum s bs + skipDeduction s bs + b0.position = s.text.length := by
  intro bs
  induction bs with
  | nil => intro b0 h; simp at h
  | cons b rest ih =>
      intro b0 hh hchain hlt hds
      have hb0 : b0 = b := by
        simp only [List.head?_cons, Option.some.injEq] at hh
        exact hh.symm
      rw [hb0]
      cases rest with
      | nil =>
          have hbp := hlt b (by simp)
          simp only [spanSum, skipDeduction, List.getLast?_singleton]
          by_cases hsk : b.isSkip
          · simp only [hsk, if_true]
            omega
          · simp only [hsk, if_false, Bool.false_eq_true]
            omega
      | cons nb rest' =>
          have hbs : b.isSkip = false := hds b (by
            rw [List.dropLast_cons₂]
            simp)
          have hblt : b.position < nb.position :=
            (List.chain'_cons.mp hchain).1
          have hih := ih nb rfl hchain.tail
            (fun x hx => hlt x (by simp [hx]))
            (fun x hx => hds x (by
              rw [List.dropLast_cons₂]
              simp [hx]))
          have hded : skipDeduction s (b :: nb :: rest')
              = skipDeduction s (nb :: rest') := by
            unfold skipDeduction
            rw [List.getLast?_cons_cons]
          simp only [spanSum, hbs, if_false, Bool.false_eq_true] at hih ⊢
          rw [hded]
          omega

/-- The data-model invariants of the run sequence (spec §3): strictly
increasing positions starting at 0, positions inside the backing text,
Skip only as the final run with its single sentinel character, and no
runs at all only for an empty backing text. -/
def WellFormedBlocks (s : TextString) : Prop :=
  List.Chain' (fun a b => a.position < b.position) s.blocks ∧
  (∀ b ∈ s.blocks, b.position < s.text.length) ∧
  (∀ b ∈ s.blocks.dropLast, b.isSkip = false) ∧
  (∀ b, s.blocks.head? = some b → b.position = 0) ∧
  (∀ b, s.blocks.getLast? = some b → b.isSkip = true →
    b.position + 1 = s.text.length) ∧
  (s.blocks = [] → s.text = [])

/-- C8: for every well-formed string, the plain text extracted over the
full selection has length equal to the backing-text length minus the one
sentinel character of the trailing Skip run when present (and the full
backing-text length otherwise). -/
theorem toString_full_length (s : TextString) (hwf : WellFormedBlocks s) :
    (toStringSel s ⟨0, s.text.length⟩).length
      = s.text.length - (if s.hasSkipBlock then 1 else 0) := by
  obtain ⟨hchain, hlt, hds, hhead, hlastskip, hempty⟩ := hwf
  have hts : toStringSel s ⟨0, s.text.length⟩
      = (toTextPreSort s ⟨0, s.text.length⟩ false false).text := by
    simp [toStringSel, toText]
  rw [hts]
  unfold toTextPreSort enumerateText
  by_cases hie :
      (s.isEmptyString || TextSelection.isEmptySel ⟨0, s.text.length⟩) = true
  · rw [if_pos hie]
    simp only [List.length_nil]
    rcases Bool.or_eq_true_iff.mp hie with hie1 | hie1
    · unfold TextString.isEmptyString at hie1
      cases hbs : s.blocks with
      | nil =>
          have ht0 : s.text = [] := hempty hbs
          have : s.hasSkipBlock = false := by
            unfold TextString.hasSkipBlock
            rw [hbs]
            rfl
          rw [this, ht0]
          rfl
      | cons b rest =>
          rw [hbs] at hie1
          simp only at hie1
          cases rest with
          | cons c rest' =>
              have := hds b (by rw [hbs, List.dropLast_cons₂]; simp)
              rw [this] at hie1
              exact absurd hie1 (by simp)
          | nil =>
              have hlb : s.blocks.getLast? = some b := by
                rw [hbs]; rfl
              have hlp := hlastskip b hlb hie1
              have hhp := hhead b (by rw [hbs]; rfl)
              have hsk : s.hasSkipBlock = true := by
                unfold TextString.hasSkipBlock
                rw [hlb]
                simpa using hie1
              rw [hsk]
              simp only [if_true]
              omega
    · have hlen : s.text.length = 0 := by
        have h2 := hie1
        simp only [TextSelection.isEmptySel, beq_iff_eq] at h2
        omega
      have hbs : s.blocks = [] := by
        cases hbsc : s.blocks with
        | nil => rfl
        | cons b rest =>
            have := hlt b (by rw [hbsc]; simp)
            omega
      have : s.hasSkipBlock = false := by
        unfold TextString.hasSkipBlock
        rw [hbs]
        rfl
      rw [this]
      simp [hlen]
  · rw [if_neg hie]
    have hrun := toTextGo_length s s.blocks
      ⟨[], [], 0, initTrackers false⟩ 0 0 0 hchain hlt
      (fun h => absurd rfl h)
    have hrun2 : (enumTextGo s ⟨0, s.text.length⟩ (toTextAppendPart false)
        toTextClickStart (toTextClickFinish false false)
        (toTextFlagsChange false)
        ⟨[], [], 0, initTrackers false⟩ 0 0 0 s.blocks).text.length
        = spanSum s s.blocks := by
      simpa using hrun
    rw [hrun2]
    have hbne : s.blocks ≠ [] := by
      intro hbs
      apply hie
      unfold TextString.isEmptyString
      rw [hbs]
      simp
    obtain ⟨b0, hb0⟩ : ∃ b0, s.blocks.head? = some b0 := by
      cases hbsc : s.blocks with
      | nil => exact absurd hbsc hbne
      | cons b rest => exact ⟨b, rfl⟩
    have hsum := spanSum_add s s.blocks b0 hb0 hchain hlt hds
    have hp0 := hhead b0 hb0
    rcases hlb : s.blocks.getLast? with _ | bl
    · exact absurd (List.getLast?_eq_none_iff.mp hlb) hbne
    · have hded : skipDeduction s s.blocks
          = if bl.isSkip then s.text.length - bl.position else 0 := by
        unfold skipDeduction
        rw [hlb]
      by_cases hskl : bl.isSkip = true
      · have hlp := hlastskip bl hlb hskl
        have hsk : s.hasSkipBlock = true := by
          unfold TextString.hasSkipBlock
          rw [hlb]
          simpa using hskl
        rw [hsk, if_pos rfl]
        rw [hded, if_pos hskl] at hsum
        omega
      · have hsk : s.hasSkipBlock = false := by
          unfold TextString.hasSkipBlock
          rw [hlb]
          simpa using hskl
        rw [hsk]
        rw [hded, if_neg hskl] at hsum
        simp only [Bool.false_eq_true, if_false]
        omega

theorem strWithSkip_wf : WellFormedBlocks strWithSkip := by
  refine ⟨?_, by decide, by decide, ?_, ?_, by decide⟩
  · rw [show strWithSkip.blocks
        = [Block.text ⟨0, 0, 0, 320, 0, 0, 14⟩ [⟨320, 0, 0⟩],
           Block.skip ⟨5, 0, 0, 64, 0, 0, 7⟩] from rfl]
    refine List.chain'_cons.mpr ⟨by decide, ?_⟩
    simp
  · intro b hb
    have hh : strWithSkip.blocks.head?
        = some (Block.text ⟨0, 0, 0, 320, 0, 0, 14⟩ [⟨320, 0, 0⟩]) := by
      decide
    rw [hh, Option.some.injEq] at hb
    rw [← hb]
    rfl
  · intro b hb hsk
    have hh : strWithSkip.blocks.getLast?
        = some (Block.skip ⟨5, 0, 0, 64, 0, 0, 7⟩) := by decide
    rw [hh, Option.some.injEq] at hb
    rw [← hb]
    rfl

theorem toString_full_length_witness :
    (toStringSel strWithSkip ⟨0, strWithSkip.text.length⟩).length
      = strWithSkip.text.length
        - (if strWithSkip.hasSkipBlock then 1 else 0) :=
  toString_full_length strWithSkip strWithSkip_wf

/-! ### C9 — termination and unit conservation of the line breaker -/

/-- The words of a block (empty for non-text blocks). -/
def blockWords : Block → List Word
  | .text _ ws => ws
  | _ => []

/-- A word with nonnegative bearing and padding whose absolute width
exceeds its right bearing — it strictly advances the line. -/
def PositiveWordAdvance (j : Word) : Prop :=
  0 ≤ j.rbearing ∧ 0 ≤ j.rpadding ∧
    j.rbearing < (if 0 ≤ j.fwidth then j.fwidth else -j.fwidth)

/-- The breaker-state invariant for unit conservation: nonnegative
horizontal padding and bearings, width budget not above the full width,
and a strict deficit as soon as the current line holds a unit (so that
the final flush fires). -/

instance (j : Word) : Decidable (PositiveWordAdvance j) := by
  unfold PositiveWordAdvance; infer_instance

structure C9Inv (W64 : Int) (st : EnumState) : Prop where
  hpl : 0 ≤ st.pad.left
  hpr : 0 ≤ st.pad.right
  hrb : 0 ≤ st.lastRB
  hrp : 0 ≤ st.lastRP
  hwl : st.widthLeft ≤ W64
  hcur : st.cur ≠ [] → st.widthLeft < W64

/-- Every unit of the string — each block, and each word of each text
block — strictly advances its line. -/
def PositiveUnits (s : TextString) : Prop :=
  ∀ b ∈ s.blocks, PositiveBlockAdvance b ∧
    ∀ j ∈ blockWords b, PositiveWordAdvance j

instance (s : TextString) : Decidable (PositiveUnits s) := by
  unfold PositiveUnits; infer_instance

theorem joinUnits_append (ls : List Line) (l : Line) :
    joinUnits (ls ++ [l]) = joinUnits ls ++ l.units := by
  simp [joinUnits]

/-- Through the word loop, the concatenation of all emitted units (lines
joined, then the current line) grows by exactly the words of the anchor
suffix, and the conservation invariant is preserved. -/
theorem wordLoop_units (W64 bh : Int) (be : Bool)
    (anchor rest : List Word) (h : rest.length ≤ anchor.length)
    (fwLeft fLineHeight : Int) (savedCur : List LUnit) (st : EnumState) :
    ∀ mid : List Word, anchor = mid ++ rest →
      st.cur = savedCur ++ mid.map LUnit.word →
      (∀ j ∈ anchor, PositiveWordAdvance j) →
      C9Inv W64 st →
      C9Inv W64 (wordLoop W64 bh be anchor rest h fwLeft fLineHeight savedCur st) ∧
        joinUnits (wordLoop W64 bh be anchor rest h fwLeft fLineHeight savedCur st).lines
            ++ (wordLoop W64 bh be anchor rest h fwLeft fLineHeight savedCur st).cur
          = joinUnits st.lines ++ savedCur ++ anchor.map LUnit.word := by
  induction anchor, rest, h, fwLeft, fLineHeight, savedCur, st using wordLoop.induct W64 bh be with
  | case1 anchor fwLeft fLineHeight savedCur st x hx =>
      intro mid hmid hcur hall hinv
      simp only [wordLoop]
      refine ⟨hinv, ?_⟩
      simp only [List.append_nil] at hmid
      rw [hcur, hmid]
      simp
  | case2 anchor j rest' h fwLeft fLineHeight savedCur st wordEndsHere jw
      newWidthLeft hfits lwl st' hcond hlen ih =>
      intro mid hmid hcur hall hinv
      have hj : PositiveWordAdvance j := hall j (by rw [hmid]; simp)
      have hfits2 : 0 ≤ st.widthLeft - st.lastRB -
          (st.lastRP + (if 0 ≤ j.fwidth then j.fwidth else -j.fwidth)
            - j.rbearing) := hfits
      have hcond2 : 0 ≤ j.fwidth ∨
          (if 0 ≤ j.fwidth then false else st.longWordLine) = true := hcond
      rw [wordLoop.eq_def]
      simp only [if_pos hfits2, if_pos hcond2]
      have hinv' : C9Inv W64 st' := by
        refine ⟨?_, ?_, ?_, ?_, ?_, ?_⟩
        · show 0 ≤ st.pad.left
          exact hinv.hpl
        · show 0 ≤ st.pad.right
          exact hinv.hpr
        · show 0 ≤ j.rbearing
          exact hj.1
        · show 0 ≤ j.rpadding
          exact hj.2.1
        · show st.widthLeft - st.lastRB -
            (st.lastRP + (if 0 ≤ j.fwidth then j.fwidth else -j.fwidth)
              - j.rbearing) ≤ W64
          have h1 := hinv.hrb
          have h2 := hinv.hrp
          have h3 := hj.2.2
          have h4 := hinv.hwl
          omega
        · intro hne
          show st.widthLeft - st.lastRB -
            (st.lastRP + (if 0 ≤ j.fwidth then j.fwidth else -j.fwidth)
              - j.rbearing) < W64
          have h1 := hinv.hrb
          have h2 := hinv.hrp
          have h3 := hj.2.2
          have h4 := hinv.hwl
          omega
      have hsub : ∀ k ∈ rest', PositiveWordAdvance k := by
        intro k hk
        apply hall
        rw [hmid]
        exact List.mem_append_right _ (List.mem_cons_of_mem _ hk)
      have key := ih [] rfl (by simp) hsub hinv'
      refine ⟨key.1, key.2.trans ?_⟩
      show joinUnits st.lines ++ (st.cur ++ [LUnit.word j])
            ++ List.map LUnit.word rest'
          = joinUnits st.lines ++ savedCur ++ List.map LUnit.word anchor
      rw [hcur, hmid]
      simp
  | case3 anchor j rest' h fwLeft fLineHeight savedCur st wordEndsHere jw
      newWidthLeft hfits lwl st' hcond hlen ih =>
      intro mid hmid hcur hall hinv
      have hj : PositiveWordAdvance j := hall j (by rw [hmid]; simp)
      have hfits2 : 0 ≤ st.widthLeft - st.lastRB -
          (st.lastRP + (if 0 ≤ j.fwidth then j.fwidth else -j.fwidth)
            - j.rbearing) := hfits
      have hcond2 : ¬(0 ≤ j.fwidth ∨
          (if 0 ≤ j.fwidth then false else st.longWordLine) = true) := hcond
      rw [wordLoop.eq_def]
      simp only [if_pos hfits2, if_neg hcond2]
      have hinv' : C9Inv W64 st' := by
        refine ⟨?_, ?_, ?_, ?_, ?_, ?_⟩
        · show 0 ≤ st.pad.left
          exact hinv.hpl
        · show 0 ≤ st.pad.right
          exact hinv.hpr
        · show 0 ≤ j.rbearing
          exact hj.1
        · show 0 ≤ j.rpadding
          exact hj.2.1
        · show st.widthLeft - st.lastRB -
            (st.lastRP + (if 0 ≤ j.fwidth then j.fwidth else -j.fwidth)
              - j.rbearing) ≤ W64
          have h1 := hinv.hrb
          have h2 := hinv.hrp
          have h3 := hj.2.2
          have h4 := hinv.hwl
          omega
        · intro hne
          show st.widthLeft - st.lastRB -
            (st.lastRP + (if 0 ≤ j.fwidth then j.fwidth else -j.fwidth)
              - j.rbearing) < W64
          have h1 := hinv.hrb
          have h2 := hinv.hrp
          have h3 := hj.2.2
          have h4 := hinv.hwl
          omega
      have hmid' : anchor = (mid ++ [j]) ++ rest' := by
        rw [hmid]
        simp
      have hcur' : st'.cur = savedCur ++ List.map LUnit.word (mid ++ [j]) := by
        show st.cur ++ [LUnit.word j] = _
        rw [hcur]
        simp
      have key := ih (mid ++ [j]) hmid' hcur' hall hinv'
      refine ⟨key.1, key.2⟩
  | case4 j rest' fwLeft fLineHeight savedCur st jw newWidthLeft hover h
      hlen hroll hlen2 =>
      intro mid hmid hcur hall hinv
      simp at hmid
  | case5 j rest' fwLeft fLineHeight savedCur st wordEndsHere jw newWidthLeft
      hover a atail h aw line nlh nwl nst hlen hroll hlen2 ih =>
      intro mid hmid hcur hall hinv
      have ha : PositiveWordAdvance a := hall a (by simp)
      have hover2 : ¬0 ≤ st.widthLeft - st.lastRB -
          (st.lastRP + (if 0 ≤ j.fwidth then j.fwidth else -j.fwidth)
            - j.rbearing) := hover
      have hroll2 : a :: atail ≠ j :: rest' ∧ be = false := hroll
      rw [wordLoop.eq_def]
      simp only [if_neg hover2, if_pos hroll2]
      have hinv' : C9Inv W64 nst := by
        refine ⟨?_, ?_, ?_, ?_, ?_, ?_⟩
        · show 0 ≤ st.pad.left
          exact hinv.hpl
        · show 0 ≤ st.pad.right
          exact hinv.hpr
        · show 0 ≤ a.rbearing
          exact ha.1
        · show 0 ≤ a.rpadding
          exact ha.2.1
        · show W64 - st.pad.left - st.pad.right -
            ((if 0 ≤ a.fwidth then a.fwidth else -a.fwidth) - a.rbearing)
              ≤ W64
          have h1 := hinv.hpl
          have h2 := hinv.hpr
          have h3 := ha.2.2
          omega
        · intro hne
          show W64 - st.pad.left - st.pad.right -
            ((if 0 ≤ a.fwidth then a.fwidth else -a.fwidth) - a.rbearing)
              < W64
          have h1 := hinv.hpl
          have h2 := hinv.hpr
          have h3 := ha.2.2
          omega
      have hsub : ∀ k ∈ atail, PositiveWordAdvance k := by
        intro k hk
        exact hall k (List.mem_cons_of_mem _ hk)
      have key := ih [] rfl (by simp) hsub hinv'
      refine ⟨key.1, key.2.trans ?_⟩
      show joinUnits (st.lines ++
            [⟨W64 - fwLeft, fLineHeight + st.pad.top, savedCur⟩])
            ++ [LUnit.word a] ++ List.map LUnit.word atail
          = joinUnits st.lines ++ savedCur
            ++ List.map LUnit.word (a :: atail)
      rw [joinUnits_append]
      simp
  | case6 anchor j rest' h fwLeft fLineHeight savedCur st wordEndsHere jw
      newWidthLeft hover hnroll line nlh nwl nst hlen2 ih =>
      intro mid hmid hcur hall hinv
      have hj : PositiveWordAdvance j := hall j (by rw [hmid]; simp)
      have hover2 : ¬0 ≤ st.widthLeft - st.lastRB -
          (st.lastRP + (if 0 ≤ j.fwidth then j.fwidth else -j.fwidth)
            - j.rbearing) := hover
      have hnroll2 : ¬(anchor ≠ j :: rest' ∧ be = false) := hnroll
      rw [wordLoop.eq_def]
      simp only [if_neg hover2, if_neg hnroll2]
      have hinv' : C9Inv W64 nst := by
        refine ⟨?_, ?_, ?_, ?_, ?_, ?_⟩
        · show 0 ≤ st.pad.left
          exact hinv.hpl
        · show 0 ≤ st.pad.right
          exact hinv.hpr
        · show 0 ≤ j.rbearing
          exact hj.1
        · show 0 ≤ j.rpadding
          exact hj.2.1
        · show W64 - st.pad.left - st.pad.right -
            ((if 0 ≤ j.fwidth then j.fwidth else -j.fwidth) - j.rbearing)
              ≤ W64
          have h1 := hinv.hpl
          have h2 := hinv.hpr
          have h3 := hj.2.2
          omega
        · intro hne
          show W64 - st.pad.left - st.pad.right -
            ((if 0 ≤ j.fwidth then j.fwidth else -j.fwidth) - j.rbearing)
              < W64
          have h1 := hinv.hpl
          have h2 := hinv.hpr
          have h3 := hj.2.2
          omega
      have hsub : ∀ k ∈ rest', PositiveWordAdvance k := by
        intro k hk
        apply hall
        rw [hmid]
        exact List.mem_append_right _ (List.mem_cons_of_mem _ hk)
      have key := ih [] rfl (by simp) hsub hinv'
      refine ⟨key.1, key.2.trans ?_⟩
      show joinUnits (st.lines ++
            [⟨W64 - st.widthLeft, st.lineHeight + st.pad.top, st.cur⟩])
            ++ [LUnit.word j] ++ List.map LUnit.word rest'
          = joinUnits st.lines ++ savedCur ++ List.map LUnit.word anchor
      rw [joinUnits_append, hmid, hcur]
      simp

theorem allUnits_eq_flatMap (s : TextString) :
    allUnits s = s.blocks.flatMap blockUnits := by
  unfold allUnits
  congr 1
  funext b
  cases b <;> rfl

/-- Overflowing non-text, non-newline blocks flush the current line and
open a new one holding just the block. -/
theorem blockStep_flush (s : TextString) (W64 : Int) (be : Bool)
    (st : EnumState) (b : Block) (hb : b.isNewline = false)
    (ht : b.isText = false)
    (hfit : ¬ 0 ≤ st.widthLeft - st.lastRB -
      (st.lastRP + b.fwidth - b.rbearing)) :
    blockStep s W64 be st b =
      { st with
          pad := st.pad.setTop 0
          lineHeight := max 0 b.height
          lastRB := b.rbearing
          lastRP := b.rpadding
          widthLeft := W64 - st.pad.left - st.pad.right
            - (b.fwidth - b.rbearing)
          longWordLine := true
          lines := st.lines ++
            [⟨W64 - st.widthLeft, st.lineHeight + st.pad.top, st.cur⟩]
          cur := [.block b] } := by
  cases b with
  | newline d p => simp [Block.isNewline] at hb
  | text d ws => simp [Block.isText] at ht
  | skip d => simp only [blockStep]; rw [if_neg hfit]
  | emoji d => simp only [blockStep]; rw [if_neg hfit]
  | customEmoji d ed => simp only [blockStep]; rw [if_neg hfit]

/-- One block step preserves the conservation invariant and appends
exactly the block's units to the concatenation of all emitted units. -/
theorem blockStep_units (s : TextString) (W64 : Int) (be : Bool)
    (st : EnumState) (b : Block)
    (hadv : PositiveBlockAdvance b)
    (hwords : ∀ j ∈ blockWords b, PositiveWordAdvance j)
    (hpad : NonnegHPad s)
    (hinv : C9Inv W64 st) :
    C9Inv W64 (blockStep s W64 be st b) ∧
      joinUnits (blockStep s W64 be st b).lines
          ++ (blockStep s W64 be st b).cur
        = joinUnits st.lines ++ st.cur ++ blockUnits b := by
  by_cases hnl : b.isNewline = true
  · cases b with
    | newline d pidx =>
        by_cases hq : st.pindex ≠ pidx
        · have hp1 := (hpad pidx).1
          have hp2 := (hpad pidx).2
          constructor
          · refine ⟨?_, ?_, ?_, ?_, ?_, ?_⟩ <;>
              simp [blockStep, if_pos hq, Margins.setTop] <;> omega
          · simp [blockStep, if_pos hq, joinUnits, blockUnits]
        · have hp1 := hinv.hpl
          have hp2 := hinv.hpr
          constructor
          · refine ⟨?_, ?_, ?_, ?_, ?_, ?_⟩ <;>
              simp [blockStep, if_neg hq, Margins.setTop] <;> omega
          · simp [blockStep, if_neg hq, joinUnits, blockUnits]
    | text d ws => simp [Block.isNewline] at hnl
    | skip d => simp [Block.isNewline] at hnl
    | emoji d => simp [Block.isNewline] at hnl
    | customEmoji d ed => simp [Block.isNewline] at hnl
  · have hnl' : b.isNewline = false := by
      cases hx : b.isNewline
      · rfl
      · exact absurd hx hnl
    have h3 := hadv.resolve_left (by rw [hnl']; simp)
    by_cases hfit : 0 ≤ st.widthLeft - st.lastRB -
        (st.lastRP + b.fwidth - b.rbearing)
    · rw [blockStep_fit s W64 be st b hnl' hfit]
      have h1 := hinv.hrb
      have h2 := hinv.hrp
      have h4 := hinv.hwl
      have h5 := h3.2.2
      constructor
      · refine ⟨hinv.hpl, hinv.hpr, h3.1, h3.2.1, ?_, ?_⟩
        · show st.widthLeft - st.lastRB -
            (st.lastRP + b.fwidth - b.rbearing) ≤ W64
          omega
        · intro hne
          show st.widthLeft - st.lastRB -
            (st.lastRP + b.fwidth - b.rbearing) < W64
          omega
      · show joinUnits st.lines ++ (st.cur ++ blockUnits b)
            = joinUnits st.lines ++ st.cur ++ blockUnits b
        simp
    · cases b with
      | newline d pidx => simp [Block.isNewline] at hnl'
      | text d ws =>
          cases ws with
          | nil =>
              have hred : blockStep s W64 be st (Block.text d []) =
                  { st with
                      lastRP := st.lastRP + d.rpadding
                      lineHeight := max st.lineHeight
                        (Block.text d []).height
                      longWordLine := false } := by
                simp only [blockStep]
                rw [if_neg hfit]
              rw [hred]
              have hrp0 : 0 ≤ d.rpadding := h3.2.1
              have h2 := hinv.hrp
              constructor
              · refine ⟨hinv.hpl, hinv.hpr, hinv.hrb, ?_, hinv.hwl,
                  hinv.hcur⟩
                show 0 ≤ st.lastRP + d.rpadding
                omega
              · show joinUnits st.lines ++ st.cur
                    = joinUnits st.lines ++ st.cur
                      ++ blockUnits (Block.text d [])
                simp [blockUnits]
          | cons w ws' =>
              have hred : blockStep s W64 be st (Block.text d (w :: ws')) =
                  wordLoop W64 (Block.text d (w :: ws')).height be
                    (w :: ws') (w :: ws') le_rfl st.widthLeft
                    st.lineHeight st.cur st := by
                simp only [blockStep]
                rw [if_neg hfit]
              rw [hred]
              have key := wordLoop_units W64
                (Block.text d (w :: ws')).height be (w :: ws') (w :: ws')
                le_rfl st.widthLeft st.lineHeight st.cur st [] rfl
                (by simp) hwords hinv
              exact ⟨key.1, key.2⟩
      | skip d =>
          rw [blockStep_flush s W64 be st (Block.skip d) rfl rfl hfit]
          have h1 := hinv.hpl
          have h2 := hinv.hpr
          have h5 := h3.2.2
          constructor
          · refine ⟨h1, h2, h3.1, h3.2.1, ?_, ?_⟩
            · show W64 - st.pad.left - st.pad.right
                - ((Block.skip d).fwidth - (Block.skip d).rbearing) ≤ W64
              omega
            · intro hne
              show W64 - st.pad.left - st.pad.right
                - ((Block.skip d).fwidth - (Block.skip d).rbearing) < W64
              omega
          · show joinUnits (st.lines ++
                [⟨W64 - st.widthLeft, st.lineHeight + st.pad.top, st.cur⟩])
                ++ [LUnit.block (Block.skip d)]
              = joinUnits st.lines ++ st.cur
                ++ blockUnits (Block.skip d)
            rw [joinUnits_append]
            simp [blockUnits]
      | emoji d =>
          rw [blockStep_flush s W64 be st (Block.emoji d) rfl rfl hfit]
          have h1 := hinv.hpl
          have h2 := hinv.hpr
          have h5 := h3.2.2
          constructor
          · refine ⟨h1, h2, h3.1, h3.2.1, ?_, ?_⟩
            · show W64 - st.pad.left - st.pad.right
                - ((Block.emoji d).fwidth - (Block.emoji d).rbearing) ≤ W64
              omega
            · intro hne
              show W64 - st.pad.left - st.pad.right
                - ((Block.emoji d).fwidth - (Block.emoji d).rbearing) < W64
              omega
          · show joinUnits (st.lines ++
                [⟨W64 - st.widthLeft, st.lineHeight + st.pad.top, st.cur⟩])
                ++ [LUnit.block (Block.emoji d)]
              = joinUnits st.lines ++ st.cur
                ++ blockUnits (Block.emoji d)
            rw [joinUnits_append]
            simp [blockUnits]
      | customEmoji d ed =>
          rw [blockStep_flush s W64 be st (Block.customEmoji d ed) rfl rfl
            hfit]
          have h1 := hinv.hpl
          have h2 := hinv.hpr
          have h5 := h3.2.2
          constructor
          · refine ⟨h1, h2, h3.1, h3.2.1, ?_, ?_⟩
            · show W64 - st.pad.left - st.pad.right
                - ((Block.customEmoji d ed).fwidth
                  - (Block.customEmoji d ed).rbearing) ≤ W64
              omega
            · intro hne
              show W64 - st.pad.left - st.pad.right
                - ((Block.customEmoji d ed).fwidth
                  - (Block.customEmoji d ed).rbearing) < W64
              omega
          · show joinUnits (st.lines ++
                [⟨W64 - st.widthLeft, st.lineHeight + st.pad.top, st.cur⟩])
                ++ [LUnit.block (Block.customEmoji d ed)]
              = joinUnits st.lines ++ st.cur
                ++ blockUnits (Block.customEmoji d ed)
            rw [joinUnits_append]
            simp [blockUnits]

/-- Folding the block loop preserves the invariant and appends exactly
the blocks\' units. -/
theorem c9_fold (s : TextString) (W64 : Int) (be : Bool)
    (bs : List Block) (st : EnumState)
    (hadv : ∀ b ∈ bs, PositiveBlockAdvance b ∧
      ∀ j ∈ blockWords b, PositiveWordAdvance j)
    (hpad : NonnegHPad s)
    (hinv : C9Inv W64 st) :
    C9Inv W64 (bs.foldl (blockStep s W64 be) st) ∧
      joinUnits (bs.foldl (blockStep s W64 be) st).lines
          ++ (bs.foldl (blockStep s W64 be) st).cur
        = joinUnits st.lines ++ st.cur ++ bs.flatMap blockUnits := by
  induction bs generalizing st with
  | nil =>
      refine ⟨hinv, ?_⟩
      simp
  | cons b rest ih =>
      simp only [List.foldl_cons]
      have hb := hadv b (by simp)
      have step := blockStep_units s W64 be st b hb.1 hb.2 hpad hinv
      have key := ih (blockStep s W64 be st b)
        (fun k hk => hadv k (List.mem_cons_of_mem _ hk)) step.1
      refine ⟨key.1, key.2.trans ?_⟩
      rw [step.2]
      simp

/-- Unit conservation for the whole breaker run: with the final flush,
the lines of `enumerateLinesU` carry exactly the units of the string. -/
theorem c9_conservation (s : TextString) (w : Int) (be : Bool)
    (hadv : PositiveUnits s) (hpad : NonnegHPad s) :
    joinUnits (enumerateLinesU s w be) = allUnits s := by
  have hinv0 : C9Inv (availWidth64 s w)
      (enumInit s (availWidth64 s w)) := by
    have hp1 := (hpad s.startParagraphIndex).1
    have hp2 := (hpad s.startParagraphIndex).2
    refine ⟨?_, ?_, ?_, ?_, ?_, ?_⟩ <;> simp [enumInit] <;> omega
  have key := c9_fold s (availWidth64 s w) be s.blocks
    (enumInit s (availWidth64 s w)) hadv hpad hinv0
  have hF : enumerateLinesU s w be =
      (s.blocks.foldl (blockStep s (availWidth64 s w) be)
        (enumInit s (availWidth64 s w))).lines ++
      (if (s.blocks.foldl (blockStep s (availWidth64 s w) be)
            (enumInit s (availWidth64 s w))).widthLeft < availWidth64 s w
        then [⟨availWidth64 s w -
            (s.blocks.foldl (blockStep s (availWidth64 s w) be)
              (enumInit s (availWidth64 s w))).widthLeft,
          (s.blocks.foldl (blockStep s (availWidth64 s w) be)
              (enumInit s (availWidth64 s w))).lineHeight +
            (s.blocks.foldl (blockStep s (availWidth64 s w) be)
              (enumInit s (availWidth64 s w))).pad.top +
            (s.blocks.foldl (blockStep s (availWidth64 s w) be)
              (enumInit s (availWidth64 s w))).pad.bottom,
          (s.blocks.foldl (blockStep s (availWidth64 s w) be)
            (enumInit s (availWidth64 s w))).cur⟩]
        else []) := rfl
  have hjoin : joinUnits (s.blocks.foldl
        (blockStep s (availWidth64 s w) be)
        (enumInit s (availWidth64 s w))).lines ++
      (s.blocks.foldl (blockStep s (availWidth64 s w) be)
        (enumInit s (availWidth64 s w))).cur = allUnits s := by
    rw [key.2, allUnits_eq_flatMap]
    simp [enumInit, joinUnits]
  rw [hF]
  by_cases hflush : (s.blocks.foldl (blockStep s (availWidth64 s w) be)
      (enumInit s (availWidth64 s w))).widthLeft < availWidth64 s w
  · rw [if_pos hflush, joinUnits_append]
    exact hjoin
  · have hcur : (s.blocks.foldl (blockStep s (availWidth64 s w) be)
        (enumInit s (availWidth64 s w))).cur = [] := by
      by_contra hne
      exact hflush (key.1.hcur hne)
    rw [if_neg hflush]
    rw [hcur] at hjoin
    simpa using hjoin

/-- C9 counterexample: a single zero-width emoji block is consumed by the
breaker without ever being placed on a line: the whole-line width deficit
stays zero, so the final flush (`widthLeft < width`) never fires and
`enumerateLines` emits no line at all, although the string has one unit.
Hence it is not true for every string that every unit is placed on
exactly one emitted line. -/
theorem enum_unit_dropped :
    enumerateLinesU strZeroEmoji 10 false = [] ∧
      allUnits strZeroEmoji
        = [.block (.emoji ⟨0, 0, 0, 0, 0, 0, 10⟩)] ∧
      joinUnits (enumerateLinesU strZeroEmoji 10 false)
        ≠ allUnits strZeroEmoji := by
  decide

/-- C9 (amended): for every string whose units all strictly advance their
line (nonnegative bearing/padding, width above the right bearing, for
every block and every word) and whose horizontal paragraph paddings are
nonnegative, every available width `w` (however narrow, even negative)
and every `breakEverywhere` flag, the breaker terminates (it is a total
function) and the concatenation of the units of the emitted lines is
exactly the unit sequence of the string: every block/word unit is placed
on exactly one line, in order, and no failure mode exists.  Without the
strict-advance hypothesis a trailing zero-width unit is dropped. -/
theorem enum_every_unit_placed (s : TextString) (w : Int) (be : Bool)
    (hadv : PositiveUnits s) (hpad : NonnegHPad s) :
    joinUnits (enumerateLinesU s w be) = allUnits s :=
  c9_conservation s w be hadv hpad

theorem enum_every_unit_placed_witness :
    joinUnits (enumerateLinesU strMixed 3 false) = allUnits strMixed :=
  enum_every_unit_placed strMixed 3 false (by decide) strMixed_nonnegHPad

/-! ### C6 — link coverage and entity production in selection extraction -/

/-- The `(linkIndex, linkPosition)` pair produced by one
`enumTextLinkPart` step: it depends only on the index inputs, not on the
accumulator or the callbacks. -/
def linkPartIdx (linkIndex linkPosition blockPosition blockLinkIndex :
    Nat) : Nat × Nat :=
  if blockLinkIndex ≠ linkIndex then
    if blockLinkIndex ≠ 0 then (blockLinkIndex, blockPosition)
    else (blockLinkIndex, linkPosition)
  else (linkIndex, linkPosition)

theorem linkPart_idx {S : Type} (s : TextString) (sel : TextSelection)
    (cs : S → EntityType → S)
    (cf : S → List Char → Nat → Nat → Option LinkHandler → EntityType → S)
    (acc : S) (li lp bp bli : Nat) :
    (enumTextLinkPart s sel cs cf acc li lp bp bli).2
      = linkPartIdx li lp bp bli := by
  unfold enumTextLinkPart linkPartIdx
  split
  · dsimp only
    split
    · rfl
    · rfl
  · rfl

/-- The flags value produced by one `enumTextFlagsPart` step, likewise
accumulator- and callback-independent. -/
def flagsPartIdx (sel : TextSelection)
    (flags blockPosition blockFlags : Nat) : Nat :=
  if (sel.from_ ≤ blockPosition ∧ blockPosition ≤ sel.to_) ∧
      blockFlags ≠ flags
  then blockFlags else flags

theorem flagsPart_idx {S : Type} (sel : TextSelection)
    (fc : S → Nat → Nat → S) (acc : S) (fl bp bf : Nat) :
    (enumTextFlagsPart sel fc acc fl bp bf).2
      = flagsPartIdx sel fl bp bf := by
  unfold enumTextFlagsPart flagsPartIdx
  split
  · rfl
  · rfl

/-- The `enumerateText` fold that records the finish events, as an
explicit recursion over the block list (`finishEvents` is its run from
the initial state). -/
def evGo (s : TextString) (sel : TextSelection) :
    List FinishEvent → Nat → Nat → Nat → List Block → List FinishEvent :=
  enumTextGo s sel (fun acc _ _ => acc) (fun acc _ => acc)
    (fun acc slice lp bp h t => acc ++ [⟨slice, lp, bp, h, t⟩])
    (fun acc _ _ => acc)

theorem finishEvents_eq (s : TextString) (sel : TextSelection) :
    finishEvents s sel =
      if s.isEmptyString || sel.isEmptySel then []
      else evGo s sel [] 0 0 0 s.blocks := rfl

/-- The finish-event accumulator only grows by appending. -/
theorem evLinkPart_acc (s : TextString) (sel : TextSelection)
    (a b : List FinishEvent) (li lp bp bli : Nat) :
    (enumTextLinkPart s sel (fun acc _ => acc)
        (fun acc slice lp bp h t => acc ++ [⟨slice, lp, bp, h, t⟩])
        (a ++ b) li lp bp bli).1
      = a ++ (enumTextLinkPart s sel (fun acc _ => acc)
        (fun acc slice lp bp h t => acc ++ [⟨slice, lp, bp, h, t⟩])
        b li lp bp bli).1 := by
  unfold enumTextLinkPart
  dsimp only
  repeat' split
  all_goals simp

theorem evFlagsPart_acc (sel : TextSelection) (acc : List FinishEvent)
    (fl bp bf : Nat) :
    (enumTextFlagsPart sel (fun acc _ _ => acc) acc fl bp bf).1 = acc := by
  unfold enumTextFlagsPart
  split
  · rfl
  · rfl

theorem evGo_acc (s : TextString) (sel : TextSelection) (bs : List Block) :
    ∀ (a b : List FinishEvent) (li lp fl : Nat),
      evGo s sel (a ++ b) li lp fl bs = a ++ evGo s sel b li lp fl bs := by
  induction bs with
  | nil =>
      intro a b li lp fl
      simp only [evGo, enumTextGo]
      rw [evFlagsPart_acc, evFlagsPart_acc, evLinkPart_acc]
  | cons c rest ih =>
      intro a b li lp fl
      simp only [evGo, enumTextGo] at ih ⊢
      rw [evLinkPart_acc, evFlagsPart_acc, evFlagsPart_acc,
        linkPart_idx, linkPart_idx, flagsPart_idx, flagsPart_idx]
      repeat' split
      all_goals first | rfl | exact ih _ _ _ _ _

/-- Membership in the recorded events is stable under running the rest of
the loop. -/
theorem evGo_mem (s : TextString) (sel : TextSelection) (bs : List Block)
    (acc : List FinishEvent) (li lp fl : Nat) (x : FinishEvent)
    (hx : x ∈ acc) : x ∈ evGo s sel acc li lp fl bs := by
  have h : evGo s sel (acc ++ []) li lp fl bs
      = acc ++ evGo s sel [] li lp fl bs := evGo_acc s sel bs acc [] li lp fl
  rw [List.append_nil] at h
  rw [h]
  exact List.mem_append_left _ hx

/-- Per-step form of the partial-coverage guarantee: any finish event
recorded with a non-null handler has `selection.from <= linkPosition` and
`blockPosition <= selection.to` — the handler is nulled ("link partially
copied") otherwise. -/
theorem evLinkPart_cover (s : TextString) (sel : TextSelection)
    (acc : List FinishEvent) (li lp bp bli : Nat)
    (hacc : ∀ ev ∈ acc, ev.handler.isSome = true →
      sel.from_ ≤ ev.linkPosition ∧ ev.blockPosition ≤ sel.to_) :
    ∀ ev ∈ (enumTextLinkPart s sel (fun acc _ => acc)
        (fun acc slice lp bp h t => acc ++ [⟨slice, lp, bp, h, t⟩])
        acc li lp bp bli).1, ev.handler.isSome = true →
      sel.from_ ≤ ev.linkPosition ∧ ev.blockPosition ≤ sel.to_ := by
  unfold enumTextLinkPart
  dsimp only
  repeat' split
  all_goals intro ev hev hs
  all_goals try exact hacc ev hev hs
  all_goals
    rcases List.mem_append.mp hev with h | h
  all_goals try exact hacc ev h hs
  all_goals simp only [List.mem_singleton] at h
  all_goals subst h
  all_goals simp only at hs ⊢
  all_goals try simp at hs
  all_goals omega

/-- Loop form of the partial-coverage guarantee. -/
theorem evGo_cover (s : TextString) (sel : TextSelection) (bs : List Block) :
    ∀ (acc : List FinishEvent) (li lp fl : Nat),
      (∀ ev ∈ acc, ev.handler.isSome = true →
        sel.from_ ≤ ev.linkPosition ∧ ev.blockPosition ≤ sel.to_) →
      ∀ ev ∈ evGo s sel acc li lp fl bs, ev.handler.isSome = true →
        sel.from_ ≤ ev.linkPosition ∧ ev.blockPosition ≤ sel.to_ := by
  induction bs with
  | nil =>
      intro acc li lp fl hacc
      simp only [evGo, enumTextGo]
      rw [evFlagsPart_acc]
      exact evLinkPart_cover s sel acc li lp _ _ hacc
  | cons c rest ih =>
      intro acc li lp fl hacc
      simp only [evGo, enumTextGo] at ih ⊢
      rw [evFlagsPart_acc]
      have hstep := evLinkPart_cover s sel acc li lp c.position
        (effLinkIndex s c) hacc
      repeat' split
      all_goals first
        | exact hstep
        | exact ih _ _ _ _ hstep

/-- Every span recorded by `linkSpansGo` starts at or above any lower
bound on the current link position and the block positions. -/
theorem linkSpansGo_start_ge (s : TextString) (bs : List Block) :
    ∀ (li lp lb : Nat) (sp : LinkSpan),
      sp ∈ linkSpansGo s bs li lp →
      (li ≠ 0 → lb ≤ lp) →
      (∀ b ∈ bs, lb ≤ b.position) →
      lb ≤ sp.start := by
  induction bs with
  | nil =>
      intro li lp lb sp hsp hli _
      simp only [linkSpansGo] at hsp
      by_cases hz : li ≠ 0
      · rw [if_pos hz] at hsp
        simp at hsp
        rw [hsp]
        exact hli hz
      · rw [if_neg hz] at hsp
        simp at hsp
  | cons b rest ih =>
      intro li lp lb sp hsp hli hbs
      simp only [linkSpansGo] at hsp
      by_cases heq : effLinkIndex s b = li
      · rw [if_pos heq] at hsp
        exact ih li lp lb sp hsp hli (fun x hx => hbs x (by simp [hx]))
      · rw [if_neg heq] at hsp
        rcases List.mem_append.mp hsp with h | h
        · by_cases hz : li ≠ 0
          · rw [if_pos hz] at h
            simp at h
            rw [h]
            exact hli hz
          · rw [if_neg hz] at h
            simp at h
        · exact ih _ _ lb sp h (fun _ => hbs b (by simp))
            (fun x hx => hbs x (by simp [hx]))

/-- A non-zero effective link index always has a live handler. -/
theorem effLinkIndex_ok (s : TextString) (b : Block) :
    effLinkIndex s b ≠ 0 →
      ((s.links.get? (effLinkIndex s b - 1)).join).isSome = true := by
  unfold effLinkIndex
  by_cases hm : IsMonoF b.flags
  · rw [if_pos hm]
    intro h
    exact absurd rfl h
  · rw [if_neg hm]
    dsimp only
    by_cases hc : b.linkIndex ≠ 0 ∧
        ((s.links.get? (b.linkIndex - 1)).join).isSome = true
    · rw [if_pos ?_]
      · intro _
        exact hc.2
      · exact ⟨hc.1, hc.2⟩
    · rw [if_neg ?_]
      · intro h
        exact absurd rfl h
      · intro hx
        exact hc ⟨hx.1, hx.2⟩

/-- Reduction of the event-machine link part at a link boundary with full
coverage: the finish event fires with the live handler. -/
theorem evLinkPart_fire (s : TextString) (sel : TextSelection)
    (acc : List FinishEvent) (li lp bp bli : Nat)
    (hne : bli ≠ li) (hz : li ≠ 0)
    (hfrom : sel.from_ ≤ lp) (hto : bp ≤ sel.to_) (hlt : lp < bp)
    (h : LinkHandler) (hh : (s.links.get? (li - 1)).join = some h) :
    (enumTextLinkPart s sel (fun acc _ => acc)
        (fun acc slice lp bp h t => acc ++ [⟨slice, lp, bp, h, t⟩])
        acc li lp bp bli).1
      = acc ++ [⟨textMid s.text lp bp, lp, bp, some h, h.entityType⟩] := by
  unfold enumTextLinkPart
  have hmax : max sel.from_ lp = lp := by omega
  have hmin : min sel.to_ bp = bp := by omega
  rw [if_pos hne]
  dsimp only
  rw [if_pos hz, hmax, hmin, if_pos hlt]
  have hcond : ¬(lp ≠ lp ∨ bp ≠ bp) := by simp
  rw [if_neg hcond, hh]
  by_cases hbz : bli ≠ 0
  · rw [if_pos hbz]
  · rw [if_neg hbz]

theorem linkPart_same {S : Type} (s : TextString) (sel : TextSelection)
    (cs : S → EntityType → S)
    (cf : S → List Char → Nat → Nat → Option LinkHandler → EntityType → S)
    (acc : S) (li lp bp bli : Nat) (h : ¬ bli ≠ li) :
    enumTextLinkPart s sel cs cf acc li lp bp bli = (acc, li, lp) := by
  unfold enumTextLinkPart
  rw [if_neg h]

/-- With no live link open, the spans do not depend on the stale link
position. -/
theorem linkSpansGo_zero (s : TextString) (bs : List Block) :
    ∀ lp lp', linkSpansGo s bs 0 lp = linkSpansGo s bs 0 lp' := by
  induction bs with
  | nil =>
      intro lp lp'
      simp [linkSpansGo]
  | cons b rest ih =>
      intro lp lp'
      simp only [linkSpansGo]
      by_cases h : effLinkIndex s b = 0
      · rw [if_pos h, if_pos h]
        exact ih lp lp'
      · rw [if_neg h, if_neg h]
        simp

/-- Full-coverage guarantee: every nonempty link span whose run-range is
fully covered by the selection produces a finish event carrying the
span's live handler. -/
theorem evGo_full_cover (s : TextString) (sel : TextSelection)
    (sp : LinkSpan)
    (hfrom : sel.from_ ≤ sp.start) (hto : sp.stop ≤ sel.to_)
    (hlt : sp.start < sp.stop) :
    ∀ (bs : List Block) (acc : List FinishEvent) (li lp fl : Nat),
      sp ∈ linkSpansGo s bs li lp →
      List.Pairwise (fun a b => a.position < b.position) bs →
      (∀ b ∈ bs, b.position ≤ s.text.length) →
      (li ≠ 0 → (∀ b ∈ bs, lp ≤ b.position) ∧ lp ≤ s.text.length) →
      (li = 0 ∨ ((s.links.get? (li - 1)).join).isSome = true) →
      ∃ h, (s.links.get? (sp.index - 1)).join = some h ∧
        FinishEvent.mk (textMid s.text sp.start sp.stop) sp.start sp.stop
          (some h) h.entityType ∈ evGo s sel acc li lp fl bs := by
  intro bs
  induction bs with
  | nil =>
      intro acc li lp fl hsp hpw hple hinv hok
      simp only [linkSpansGo] at hsp
      by_cases hz : li ≠ 0
      · rw [if_pos hz] at hsp
        simp only [List.mem_singleton] at hsp
        obtain ⟨h, hh⟩ := Option.isSome_iff_exists.mp (hok.resolve_left hz)
        refine ⟨h, by rw [hsp]; exact hh, ?_⟩
        simp only [evGo, enumTextGo]
        rw [evFlagsPart_acc]
        rw [hsp]
        dsimp only
        rw [evLinkPart_fire s sel acc li lp s.text.length 0
          (Ne.symm hz) hz (by rw [hsp] at hfrom; exact hfrom)
          (by rw [hsp] at hto; exact hto)
          (by rw [hsp] at hlt; exact hlt) h hh]
        simp
      · rw [if_neg hz] at hsp
        simp at hsp
  | cons c rest ih =>
      intro acc li lp fl hsp hpw hple hinv hok
      have hpw' : List.Pairwise (fun a b => a.position < b.position) rest :=
        hpw.tail
      have hcrest : ∀ x ∈ rest, c.position ≤ x.position := by
        intro x hx
        exact le_of_lt ((List.pairwise_cons.mp hpw).1 x hx)
      have hple' : ∀ x ∈ rest, x.position ≤ s.text.length :=
        fun x hx => hple x (by simp [hx])
      simp only [linkSpansGo] at hsp
      simp only [evGo, enumTextGo] at ih ⊢
      by_cases heq : effLinkIndex s c = li
      · rw [if_pos heq] at hsp
        have hL := linkPart_same s sel (fun acc _ => acc)
          (fun acc slice lp bp h t => acc ++ [⟨slice, lp, bp, h, t⟩])
          acc li lp c.position (effLinkIndex s c) (by rw [heq]; simp)
        rw [hL]
        dsimp only
        rw [evFlagsPart_acc]
        have hstart : (if li ≠ 0 then lp else c.position) ≤ sp.start := by
          by_cases hz : li ≠ 0
          · rw [if_pos hz]
            refine linkSpansGo_start_ge s rest li lp lp sp hsp
              (fun _ => le_rfl) ?_
            intro x hx
            exact (hinv hz).1 x (List.mem_cons_of_mem _ hx)
          · rw [if_neg hz]
            exact linkSpansGo_start_ge s rest li lp c.position sp hsp
              (by intro hzz; exact absurd hzz hz) hcrest
        have hv : (if li ≠ 0 then lp else c.position) < sel.to_ :=
          lt_of_le_of_lt hstart (lt_of_lt_of_le hlt hto)
        rw [if_neg (not_le.mpr hv)]
        have hinv' : li ≠ 0 →
            (∀ b ∈ rest, lp ≤ b.position) ∧ lp ≤ s.text.length :=
          fun hz => ⟨fun x hx => (hinv hz).1 x (List.mem_cons_of_mem _ hx),
            (hinv hz).2⟩
        by_cases hsk : c.isSkip = true
        · rw [if_pos hsk]
          exact ih acc li lp _ hsp hpw' hple' hinv' hok
        · rw [if_neg hsk]
          split
          · exact ih _ li lp _ hsp hpw' hple' hinv' hok
          · exact ih _ li lp _ hsp hpw' hple' hinv' hok
      · rw [if_neg heq] at hsp
        rcases List.mem_append.mp hsp with hB1 | hB2
        · by_cases hz : li ≠ 0
          · rw [if_pos hz] at hB1
            simp only [List.mem_singleton] at hB1
            obtain ⟨h, hh⟩ :=
              Option.isSome_iff_exists.mp (hok.resolve_left hz)
            refine ⟨h, ?_, ?_⟩
            · rw [hB1]
              exact hh
            · rw [linkPart_idx]
              rw [evLinkPart_fire s sel acc li lp c.position
                (effLinkIndex s c) heq hz
                (by rw [hB1] at hfrom; exact hfrom)
                (by rw [hB1] at hto; exact hto)
                (by rw [hB1] at hlt; exact hlt) h hh]
              rw [evFlagsPart_acc]
              rw [hB1]
              dsimp only
              repeat' split
              all_goals first
                | simp
                | exact evGo_mem s sel rest _ _ _ _ _ (by simp)
          · rw [if_neg hz] at hB1
            simp at hB1
        · have hcle : c.position ≤ sp.start :=
            linkSpansGo_start_ge s rest (effLinkIndex s c) c.position
              c.position sp hB2 (fun _ => le_rfl) hcrest
          have hv : c.position < sel.to_ :=
            lt_of_le_of_lt hcle (lt_of_lt_of_le hlt hto)
          rw [linkPart_idx]
          by_cases hbz : effLinkIndex s c ≠ 0
          · have hidx : linkPartIdx li lp c.position (effLinkIndex s c)
                = (effLinkIndex s c, c.position) := by
              unfold linkPartIdx
              rw [if_pos heq, if_pos hbz]
            rw [hidx]
            dsimp only
            rw [if_pos hbz]
            rw [if_neg (not_le.mpr hv)]
            have hinv2 : effLinkIndex s c ≠ 0 →
                (∀ b ∈ rest, c.position ≤ b.position) ∧
                  c.position ≤ s.text.length :=
              fun _ => ⟨hcrest, hple c (by simp)⟩
            have hok2 : effLinkIndex s c = 0 ∨
                ((s.links.get? (effLinkIndex s c - 1)).join).isSome
                  = true := Or.inr (effLinkIndex_ok s c hbz)
            by_cases hsk : c.isSkip = true
            · rw [if_pos hsk]
              exact ih _ _ _ _ hB2 hpw' hple' hinv2 hok2
            · rw [if_neg hsk]
              split
              · exact ih _ _ _ _ hB2 hpw' hple' hinv2 hok2
              · exact ih _ _ _ _ hB2 hpw' hple' hinv2 hok2
          · have hbz0 : effLinkIndex s c = 0 := not_ne_iff.mp hbz
            have hidx : linkPartIdx li lp c.position (effLinkIndex s c)
                = (effLinkIndex s c, lp) := by
              unfold linkPartIdx
              rw [if_pos heq, if_neg hbz]
            rw [hidx]
            dsimp only
            rw [if_neg hbz]
            rw [if_neg (not_le.mpr hv)]
            have hsp2 : sp ∈ linkSpansGo s rest 0 lp := by
              rw [linkSpansGo_zero s rest lp c.position]
              rw [hbz0] at hB2
              exact hB2
            have hsp3 : sp ∈ linkSpansGo s rest (effLinkIndex s c) lp := by
              rw [hbz0]
              exact hsp2
            have hinv2 : effLinkIndex s c ≠ 0 →
                (∀ b ∈ rest, lp ≤ b.position) ∧ lp ≤ s.text.length :=
              fun hzz => absurd hbz0 hzz
            have hok2 : effLinkIndex s c = 0 ∨
                ((s.links.get? (effLinkIndex s c - 1)).join).isSome
                  = true := Or.inl hbz0
            by_cases hsk : c.isSkip = true
            · rw [if_pos hsk]
              exact ih _ _ _ _ hsp3 hpw' hple' hinv2 hok2
            · rw [if_neg hsk]
              split
              · exact ih _ _ _ _ hsp3 hpw' hple' hinv2 hok2
              · exact ih _ _ _ _ hsp3 hpw' hple' hinv2 hok2

theorem insertEntityRev_mem (l : List EntityInText) (e x : EntityInText)
    (hx : x ∈ l) : x ∈ insertEntityRev l e := by
  induction l with
  | nil => simp at hx
  | cons y ys ih =>
      simp only [insertEntityRev]
      rcases List.mem_cons.mp hx with h | h
      · split
        · rw [h]
          simp
        · rw [h]
          simp
      · split
        · exact List.mem_cons_of_mem _ (ih h)
        · simp [h]

theorem insertEntityRev_mem_self (l : List EntityInText)
    (e : EntityInText) : e ∈ insertEntityRev l e := by
  induction l with
  | nil => simp [insertEntityRev]
  | cons y ys ih =>
      simp only [insertEntityRev]
      split
      · exact List.mem_cons_of_mem _ ih
      · simp

theorem insertEntity_mem (l : List EntityInText) (e x : EntityInText)
    (hx : x ∈ l) : x ∈ insertEntity l e := by
  unfold insertEntity
  rw [List.mem_reverse]
  exact insertEntityRev_mem _ _ _ (by rw [List.mem_reverse]; exact hx)

theorem insertEntity_mem_self (l : List EntityInText) (e : EntityInText) :
    e ∈ insertEntity l e := by
  unfold insertEntity
  rw [List.mem_reverse]
  exact insertEntityRev_mem_self _ _

/-- Entity-list membership is monotone through every `toText` callback. -/
theorem toTextFlagsChange_ents (ce : Bool) (st : ToTextState)
    (o n : Nat) (x : EntityInText) (hx : x ∈ st.entities) :
    x ∈ (toTextFlagsChange ce st o n).entities := by
  unfold toTextFlagsChange
  split
  · exact hx
  · have key : ∀ (l : List MarkdownTagTracker) (a : ToTextState),
        x ∈ a.entities →
        x ∈ (l.foldl (fun acc tracker =>
          if (o &&& tracker.flag ≠ 0) ∧ (n &&& tracker.flag = 0) then
            { acc with
                entities := insertEntity acc.entities
                  ⟨tracker.type, tracker.start,
                    (st.text.length : Int) - tracker.start, []⟩
                trackers := acc.trackers ++ [tracker] }
          else if (n &&& tracker.flag ≠ 0) ∧ (o &&& tracker.flag = 0) then
            { acc with trackers := acc.trackers ++
                [{ tracker with start := (st.text.length : Int) }] }
          else
            { acc with trackers := acc.trackers ++ [tracker] }) a).entities := by
      intro l
      induction l with
      | nil => intro a ha; exact ha
      | cons t ts ih =>
          intro a ha
          simp only [List.foldl_cons]
          apply ih
          split
          · exact insertEntity_mem _ _ _ ha
          · split
            · exact ha
            · exact ha
    exact key st.trackers { st with trackers := [] } hx

theorem toTextClickFinish_ents (cexp ce : Bool) (st : ToTextState)
    (it : List Char) (lp bp : Nat) (hd : Option LinkHandler)
    (et : EntityType) (x : EntityInText) (hx : x ∈ st.entities) :
    x ∈ (toTextClickFinish cexp ce st it lp bp hd et).entities := by
  unfold toTextClickFinish
  split
  · exact hx
  · split
    · exact hx
    · dsimp only
      split
      · exact insertEntity_mem _ _ _ hx
      · exact hx

theorem toTextAppendPart_ents (ce : Bool) (st : ToTextState)
    (part ced : List Char) (x : EntityInText) (hx : x ∈ st.entities) :
    x ∈ (toTextAppendPart ce st part ced).entities := by
  unfold toTextAppendPart
  split
  · exact insertEntity_mem _ _ _ hx
  · exact hx

/-- The invariant tying recorded finish events to produced entities:
every event carrying a live non-`internal:` handler already has a
matching entity (same type; handler data as payload, empty for plain
urls/emails). -/
def EntsInv (accE : List FinishEvent) (accT : ToTextState) : Prop :=
  ∀ ev ∈ accE, ∀ h : LinkHandler, ev.handler = some h →
    ¬(h.entityType = EntityType.customUrl ∧
      startsWithInternal h.data = true) →
    ∃ e ∈ accT.entities, e.type = h.entityType ∧
      e.data = (if h.entityType = EntityType.url ∨
        h.entityType = EntityType.email then [] else h.data)

theorem entsInv_mono (accE : List FinishEvent) (a b : ToTextState)
    (hab : ∀ x ∈ a.entities, x ∈ b.entities)
    (h : EntsInv accE a) : EntsInv accE b := by
  intro ev hev hh hhd hni
  obtain ⟨e, he, hp⟩ := h ev hev hh hhd hni
  exact ⟨e, hab e he, hp⟩

/-- The entity inserted by a finish callback that receives a live
non-`internal:` handler (with entity composition on). -/
theorem clickFinish_ents_new (cexp : Bool) (accT : ToTextState)
    (slice : List Char) (lp bp : Nat) (hd : Option LinkHandler)
    (et : EntityType) (h : LinkHandler) (hh : hd = some h)
    (hni : ¬(h.entityType = EntityType.customUrl ∧
      startsWithInternal h.data = true)) :
    ∃ e ∈ (toTextClickFinish cexp true accT slice lp bp hd et).entities,
      e.type = h.entityType ∧
      e.data = (if h.entityType = EntityType.url ∨
        h.entityType = EntityType.email then [] else h.data) := by
  rw [hh]
  unfold toTextClickFinish
  dsimp only
  rw [if_neg (by simp)]
  rw [if_pos ⟨rfl, hni⟩]
  exact ⟨_, insertEntity_mem_self _ _, rfl, rfl⟩

theorem linkPart_ents_sound (s : TextString) (sel : TextSelection)
    (cexp : Bool) (accT : ToTextState) (accE : List FinishEvent)
    (li lp bp bli : Nat)
    (hacc : EntsInv accE accT) :
    EntsInv
      ((enumTextLinkPart s sel (fun acc _ => acc)
        (fun acc slice lp bp h t => acc ++ [⟨slice, lp, bp, h, t⟩])
        accE li lp bp bli).1)
      ((enumTextLinkPart s sel toTextClickStart
        (toTextClickFinish cexp true) accT li lp bp bli).1) := by
  have hcore : EntsInv
      (if li ≠ 0 then
        (if max sel.from_ lp < min sel.to_ bp then
          accE ++ [⟨textMid s.text (max sel.from_ lp) (min sel.to_ bp),
            lp, bp,
            (if lp ≠ max sel.from_ lp ∨ bp ≠ min sel.to_ bp then none
              else (s.links.get? (li - 1)).join),
            (match (if lp ≠ max sel.from_ lp ∨ bp ≠ min sel.to_ bp
                then none else (s.links.get? (li - 1)).join) with
              | some h => h.entityType
              | none => EntityType.invalid)⟩]
          else accE)
        else accE)
      (if li ≠ 0 then
        (if max sel.from_ lp < min sel.to_ bp then
          toTextClickFinish cexp true accT
            (textMid s.text (max sel.from_ lp) (min sel.to_ bp)) lp bp
            (if lp ≠ max sel.from_ lp ∨ bp ≠ min sel.to_ bp then none
              else (s.links.get? (li - 1)).join)
            (match (if lp ≠ max sel.from_ lp ∨ bp ≠ min sel.to_ bp
                then none else (s.links.get? (li - 1)).join) with
              | some h => h.entityType
              | none => EntityType.invalid)
          else accT)
        else accT) := by
    by_cases h2 : li ≠ 0
    · rw [if_pos h2, if_pos h2]
      by_cases h3 : max sel.from_ lp < min sel.to_ bp
      · rw [if_pos h3, if_pos h3]
        intro ev hev h hh hni
        rcases List.mem_append.mp hev with hold | hnew
        · obtain ⟨e, he, hp⟩ := hacc ev hold h hh hni
          exact ⟨e, toTextClickFinish_ents _ _ _ _ _ _ _ _ e he, hp⟩
        · simp only [List.mem_singleton] at hnew
          rw [hnew] at hh
          exact clickFinish_ents_new cexp accT _ lp bp _ _ h hh hni
      · rw [if_neg h3, if_neg h3]
        exact hacc
    · rw [if_neg h2, if_neg h2]
      exact hacc
  unfold enumTextLinkPart
  by_cases h1 : bli ≠ li
  · rw [if_pos h1, if_pos h1]
    dsimp only
    by_cases h5 : bli ≠ 0
    · rw [if_pos h5, if_pos h5]
      dsimp only
      exact entsInv_mono _ _ _ (fun x hx => hx) hcore
    · rw [if_neg h5, if_neg h5]
      exact hcore
  · rw [if_neg h1, if_neg h1]
    exact hacc

theorem flagsPart_ents_sound (sel : TextSelection) (ce : Bool)
    (accT : ToTextState) (accE : List FinishEvent) (fl bp bf : Nat)
    (hacc : EntsInv accE accT) :
    EntsInv ((enumTextFlagsPart sel (fun a _ _ => a) accE fl bp bf).1)
      ((enumTextFlagsPart sel (toTextFlagsChange ce) accT fl bp bf).1) := by
  unfold enumTextFlagsPart
  by_cases hc : (sel.from_ ≤ bp ∧ bp ≤ sel.to_) ∧ bf ≠ fl
  · rw [if_pos hc, if_pos hc]
    exact entsInv_mono _ _ _
      (fun x hx => toTextFlagsChange_ents ce accT fl bf x hx) hacc
  · rw [if_neg hc, if_neg hc]
    exact hacc

/-- The `enumerateText` fold with the `toText` callbacks, as an explicit
recursion over the block list. -/
def ttGo (s : TextString) (sel : TextSelection) (cexp ce : Bool) :
    ToTextState → Nat → Nat → Nat → List Block → ToTextState :=
  enumTextGo s sel (toTextAppendPart ce) toTextClickStart
    (toTextClickFinish cexp ce) (toTextFlagsChange ce)

/-- Running both the event recorder and the `toText` machine over the same
blocks preserves the events-to-entities invariant. -/
theorem evGo_ttGo_ents (s : TextString) (sel : TextSelection)
    (cexp : Bool) (bs : List Block) :
    ∀ (accT : ToTextState) (accE : List FinishEvent) (li lp fl : Nat),
      EntsInv accE accT →
      EntsInv (evGo s sel accE li lp fl bs)
        (ttGo s sel cexp true accT li lp fl bs) := by
  induction bs with
  | nil =>
      intro accT accE li lp fl hacc
      simp only [evGo, ttGo, enumTextGo]
      exact flagsPart_ents_sound sel true _ _ fl _ _
        (linkPart_ents_sound s sel cexp accT accE li lp _ _ hacc)
  | cons c rest ih =>
      intro accT accE li lp fl hacc
      simp only [evGo, ttGo, enumTextGo] at ih ⊢
      rw [linkPart_idx, linkPart_idx, flagsPart_idx, flagsPart_idx]
      have hstep := flagsPart_ents_sound sel true _ _ fl c.position c.flags
        (linkPart_ents_sound s sel cexp accT accE li lp c.position
          (effLinkIndex s c) hacc)
      by_cases hbrk : (if (linkPartIdx li lp c.position
            (effLinkIndex s c)).1 ≠ 0
          then (linkPartIdx li lp c.position (effLinkIndex s c)).2
          else c.position) ≥ sel.to_
      · rw [if_pos hbrk, if_pos hbrk]
        exact hstep
      · rw [if_neg hbrk, if_neg hbrk]
        by_cases hsk : c.isSkip = true
        · rw [if_pos hsk, if_pos hsk]
          exact ih _ _ _ _ _ hstep
        · rw [if_neg hsk, if_neg hsk]
          cases rest with
          | nil =>
              by_cases hr : max sel.from_ c.position < min sel.to_
                  (c.position + (s.text.length - c.position))
              · rw [if_pos hr, if_pos hr]
                exact ih _ _ _ _ _ (entsInv_mono _ _ _
                  (fun x hx => toTextAppendPart_ents true _ _ _ x hx) hstep)
              · rw [if_neg hr, if_neg hr]
                exact ih _ _ _ _ _ hstep
          | cons nb tail =>
              by_cases hr : max sel.from_ c.position < min sel.to_
                  (c.position + (nb.position - c.position))
              · rw [if_pos hr, if_pos hr]
                exact ih _ _ _ _ _ (entsInv_mono _ _ _
                  (fun x hx => toTextAppendPart_ents true _ _ _ x hx) hstep)
              · rw [if_neg hr, if_neg hr]
                exact ih _ _ _ _ _ hstep

/-- C6 (amended): for every string with strictly increasing block
positions lying inside the backing text, and every selection: (i) every
finish event fired by `enumerateText` with a non-null handler has its
link range fully covered by the selection (the handler is nulled when
the link is only partially copied); (ii) every nonempty link span whose
run-range is fully covered by the selection fires a finish event carrying
the span's live handler; and (iii) every finish event carrying a live
handler that is not an `internal:` custom-url contributes an entity of
the handler's type (with the handler data as payload, empty for plain
urls/emails) to the `toText` output when entities are composed.  A fully
covered `internal:` custom-url link fires its event but yields no entity,
so the original claim's unconditional "fully covered yields a completed
entity" fails. -/
theorem link_coverage_entity_spec (s : TextString) (sel : TextSelection)
    (cexp : Bool)
    (hpw : List.Pairwise (fun a b => a.position < b.position) s.blocks)
    (hple : ∀ b ∈ s.blocks, b.position ≤ s.text.length) :
    (∀ ev ∈ finishEvents s sel, ev.handler.isSome = true →
      sel.from_ ≤ ev.linkPosition ∧ ev.blockPosition ≤ sel.to_) ∧
    (s.isEmptyString = false →
      ∀ sp ∈ linkSpans s, sel.from_ ≤ sp.start → sp.stop ≤ sel.to_ →
        sp.start < sp.stop →
        ∃ h, (s.links.get? (sp.index - 1)).join = some h ∧
          FinishEvent.mk (textMid s.text sp.start sp.stop) sp.start sp.stop
            (some h) h.entityType ∈ finishEvents s sel) ∧
    (∀ ev ∈ finishEvents s sel, ∀ h : LinkHandler, ev.handler = some h →
      ¬(h.entityType = EntityType.customUrl ∧
        startsWithInternal h.data = true) →
      ∃ e ∈ (toText s sel cexp true).entities,
        e.type = h.entityType ∧
        e.data = (if h.entityType = EntityType.url ∨
          h.entityType = EntityType.email then [] else h.data)) := by
  refine ⟨?_, ?_, ?_⟩
  · rw [finishEvents_eq]
    by_cases hg : (s.isEmptyString || sel.isEmptySel) = true
    · rw [if_pos hg]
      intro ev hev
      simp at hev
    · rw [if_neg hg]
      exact evGo_cover s sel s.blocks [] 0 0 0
        (by intro ev hev; simp at hev)
  · intro hnes sp hsp hfrom hto hlt
    have hft : sel.from_ ≠ sel.to_ := by omega
    have hg : ¬((s.isEmptyString || sel.isEmptySel) = true) := by
      rw [hnes]
      simp only [Bool.false_or]
      unfold TextSelection.isEmptySel
      simp [hft]
    rw [finishEvents_eq, if_neg hg]
    exact evGo_full_cover s sel sp hfrom hto hlt s.blocks [] 0 0 0 hsp
      hpw hple (fun h => absurd rfl h) (Or.inl rfl)
  · have hents : (toText s sel cexp true).entities
        = ((toTextPreSort s sel cexp true).entities).mergeSort
            entityKeyLe := rfl
    intro ev hev h hh hni
    rw [finishEvents_eq] at hev
    by_cases hg : (s.isEmptyString || sel.isEmptySel) = true
    · rw [if_pos hg] at hev
      simp at hev
    · rw [if_neg hg] at hev
      have hpre : toTextPreSort s sel cexp true
          = ttGo s sel cexp true ⟨[], [], 0, initTrackers true⟩
            0 0 0 s.blocks := by
        unfold toTextPreSort enumerateText ttGo
        rw [if_neg hg]
      have hinv := evGo_ttGo_ents s sel cexp s.blocks
        ⟨[], [], 0, initTrackers true⟩ [] 0 0 0
        (by intro e he hx hy hz; simp at he)
      obtain ⟨e, he, hp⟩ := hinv ev hev h hh hni
      refine ⟨e, ?_, hp⟩
      rw [hents, hpre]
      exact (List.mergeSort_perm _ _).mem_iff.mpr he

/-- C6 counterexample: a link span fully covered by the selection need
not yield a completed entity: an `internal:` custom-url link fires its
finish event with the live (non-null) handler, but `toText` composes no
entity for it.  On `strLinkInternal` the single span `[0, 5)` is fully
covered by the selection `[0, 10)`, the finish event carries the handler,
and the output entity list is empty. -/
theorem link_full_cover_no_entity :
    linkSpans strLinkInternal = [⟨1, 0, 5⟩] ∧
      finishEvents strLinkInternal ⟨0, 10⟩
        = [⟨"hello".toList, 0, 5,
            some ⟨.customUrl, "internal:x".toList⟩, .customUrl⟩] ∧
      (toText strLinkInternal ⟨0, 10⟩ false true).entities = [] := by
  refine ⟨by decide, by decide, ?_⟩
  have h0 : (toTextPreSort strLinkInternal ⟨0, 10⟩ false true).entities
      = [] := by decide
  show ((toTextPreSort strLinkInternal ⟨0, 10⟩ false true).entities
      ).mergeSort entityKeyLe = []
  rw [h0]
  simp

theorem link_coverage_entity_spec_witness :
    (∀ ev ∈ finishEvents strLinkUrl ⟨0, 10⟩, ev.handler.isSome = true →
      (⟨0, 10⟩ : TextSelection).from_ ≤ ev.linkPosition ∧
        ev.blockPosition ≤ (⟨0, 10⟩ : TextSelection).to_) ∧
    (strLinkUrl.isEmptyString = false →
      ∀ sp ∈ linkSpans strLinkUrl,
        (⟨0, 10⟩ : TextSelection).from_ ≤ sp.start →
        sp.stop ≤ (⟨0, 10⟩ : TextSelection).to_ →
        sp.start < sp.stop →
        ∃ h, (strLinkUrl.links.get? (sp.index - 1)).join = some h ∧
          FinishEvent.mk (textMid strLinkUrl.text sp.start sp.stop)
            sp.start sp.stop (some h) h.entityType
            ∈ finishEvents strLinkUrl ⟨0, 10⟩) ∧
    (∀ ev ∈ finishEvents strLinkUrl ⟨0, 10⟩, ∀ h : LinkHandler,
      ev.handler = some h →
      ¬(h.entityType = EntityType.customUrl ∧
        startsWithInternal h.data = true) →
      ∃ e ∈ (toText strLinkUrl ⟨0, 10⟩ false true).entities,
        e.type = h.entityType ∧
        e.data = (if h.entityType = EntityType.url ∨
          h.entityType = EntityType.email then [] else h.data)) :=
  link_coverage_entity_spec strLinkUrl ⟨0, 10⟩ false (by decide) (by decide)
